import Mathlib

/-!
Verification development for the VEIL private parimutuel prediction market.

The on-ledger program (src/programs/veil/src/lib.rs, state/market.rs, state/bet.rs)
and the confidential circuits (src/encrypted-ixs/src/lib.rs) are shallowly embedded
below.  Machine integers (u64, u32, u128) are modelled as `Nat` with an explicit
`% 2^w` wherever the source performs a narrowing `as` cast or wrapping arithmetic;
`saturating_sub` is `Nat` subtraction; `checked_add` failures abort the entry point.
Ciphertexts are modelled by the plaintext values they decrypt to: an encrypted bet
is the pair (outcome, amount) the client encrypted, and the market's encrypted
aggregate is the plaintext pool triple held by the MPC network.  Each Anchor entry
point (account constraints followed by the instruction body) becomes a function
`Chain → args → Except Err Chain`; a failed transaction leaves the chain unchanged.
-/

namespace Veil

/-- 2^64, the u64 modulus. -/
def U64 : Nat := 2 ^ 64

/-- 2^32, the u32 modulus. -/
def U32 : Nat := 2 ^ 32

/-- Minimum bet, from `MIN_BET_LAMPORTS` in lib.rs. -/
def MIN_BET_LAMPORTS : Nat := 1000000

/-- Maximum bet, from `MAX_BET_LAMPORTS` in lib.rs. -/
def MAX_BET_LAMPORTS : Nat := 1000000000000

/-- Maximum question length, from `MAX_QUESTION_LEN` in lib.rs. -/
def MAX_QUESTION_LEN : Nat := 200

/-- Market status, from `MarketStatus` in state/market.rs. -/
inductive MarketStatus
  | Open
  | Closed
  | Resolving
  | Resolved
  | Cancelled
deriving DecidableEq, Inhabited

/-- Bet status, from `BetStatus` in state/bet.rs. -/
inductive BetStatus
  | Pending
  | Confirmed
  | Claimed
  | Refunded
deriving DecidableEq, Inhabited

/-- Oracle type, from `OracleType` in state/market.rs. -/
inductive OracleType
  | Manual
  | Switchboard
  | Jury
deriving DecidableEq, Inhabited

/-- `OracleType::from(u8)` in state/market.rs: 0 Manual, 1 Switchboard, 2 Jury, else Manual. -/
def OracleType.fromByte : Nat → OracleType
  | 0 => .Manual
  | 1 => .Switchboard
  | 2 => .Jury
  | _ => .Manual

/-- Plaintext content of the MPC `MarketState` aggregate (encrypted-ixs/src/lib.rs):
yes pool and no pool are u64, bet count is u32. -/
structure Agg where
  yesPool : Nat
  noPool : Nat
  betCount : Nat
deriving DecidableEq, Inhabited

/-- The `Market` account (state/market.rs), with the encrypted aggregate replaced by
the plaintext content it decrypts to. -/
structure Market where
  marketId : Nat
  authority : Nat
  question : String
  resolutionTime : Int
  createdAt : Int
  feeBps : Nat
  oracleType : OracleType
  status : MarketStatus
  outcome : Option Bool
  encState : Agg
  stateNonce : Nat
  mpcInitialized : Bool
  revealedYesPool : Nat
  revealedNoPool : Nat
  revealedTotalPool : Nat
  betCount : Nat
  totalLiquidityApprox : Nat
deriving DecidableEq, Inhabited

/-- The `MarketVault` account (state/market.rs): cumulative deposit and withdrawal counters. -/
structure MarketVault where
  totalDeposits : Nat
  totalWithdrawals : Nat
deriving DecidableEq, Inhabited

/-- The `BetRecord` account (state/bet.rs); `encryptedBet` holds the plaintext
(outcome, amount) pair the stored ciphertext decrypts to. -/
structure BetRecord where
  bettor : Nat
  betIndex : Nat
  encryptedBet : Bool × Nat
  userPubkey : Nat
  userNonce : Nat
  betLamports : Nat
  status : BetStatus
  placedAt : Int
  confirmedAt : Option Int
  claimed : Bool
  payoutAmount : Option Nat
deriving DecidableEq, Inhabited

/-- A computation queued to the MPC network.  `placeBetComp` and `calcPayoutComp`
record the market's `state_nonce` captured at queue time (it is passed as a
plaintext argument in `place_bet` and `resolve_market`).  `verifyBetClaimComp`
stands for the `verify_bet_claim` circuit, which no entry point ever queues. -/
inductive CompKind
  | initMarketStateComp (nonce : Nat)
  | placeBetComp (bettor : Nat) (betOutcome : Bool) (betAmount : Nat) (capturedNonce : Nat)
  | calcPayoutComp (outcome : Bool) (capturedNonce : Nat)
  | verifyBetClaimComp
deriving DecidableEq, Inhabited

/-- An outstanding MPC computation: its caller-chosen offset and payload. -/
structure PendingComp where
  offset : Nat
  kind : CompKind
deriving DecidableEq, Inhabited

/-- The full on-ledger state for one market: the market account, its vault,
the bet records keyed by bettor, the outstanding MPC computations, the log of
lamport transfers out of the vault (bettor, amount), and the clock. -/
structure Chain where
  market : Market
  vault : MarketVault
  bets : List (Nat × BetRecord)
  pending : List PendingComp
  transfers : List (Nat × Nat)
  now : Int
deriving DecidableEq, Inhabited

/-- Error codes, from `ErrorCode` in lib.rs (plus `accountError` for Anchor-level
account failures: PDA already initialized, account not found, offset reuse). -/
inductive Err
  | invalidInput
  | unauthorized
  | marketNotOpen
  | marketNotClosed
  | marketNotResolved
  | marketAlreadyResolved
  | marketCancelled
  | bettingPeriodEnded
  | mpcNotInitialized
  | mpcAlreadyInitialized
  | betAmountTooLow
  | betAmountTooHigh
  | betAlreadyClaimed
  | betNotConfirmed
  | invalidBetClaim
  | overflow
  | accountError
deriving DecidableEq, Inhabited

/-! ## The confidential circuits (encrypted-ixs/src/lib.rs) -/

/-- `init_market_state` circuit: zero pools, zero count. -/
def initMarketStateCircuit : Agg := ⟨0, 0, 0⟩

/-- `place_bet` circuit: add the bet amount to the pool selected by the bet
outcome and increment the count, in u64 / u32 arithmetic. -/
def placeBetCircuit (betOutcome : Bool) (betAmount : Nat) (s : Agg) : Agg :=
  let s1 :=
    if betOutcome then { s with yesPool := (s.yesPool + betAmount) % U64 }
    else { s with noPool := (s.noPool + betAmount) % U64 }
  { s1 with betCount := (s1.betCount + 1) % U32 }

/-- Output of the `calculate_payout_pools` circuit. -/
structure PayoutResult where
  winningPool : Nat
  losingPool : Nat
  totalPool : Nat
  outcome : Bool
deriving DecidableEq, Inhabited

/-- `calculate_payout_pools` circuit: bucket the pools by the supplied outcome
and reveal them together with the total. -/
def calculatePayoutPoolsCircuit (s : Agg) (outcome : Bool) : PayoutResult :=
  let wl := if outcome then (s.yesPool, s.noPool) else (s.noPool, s.yesPool)
  ⟨wl.1, wl.2, (s.yesPool + s.noPool) % U64, outcome⟩

/-- `reveal_market_totals` circuit: reveal both pools and their sum. -/
def revealMarketTotalsCircuit (s : Agg) : Nat × Nat × Nat :=
  (s.yesPool, s.noPool, (s.yesPool + s.noPool) % U64)

/-- `verify_bet_claim` circuit: encrypted equality of the original bet with the claim. -/
def verifyBetClaimCircuit (original : Bool × Nat) (claimedOutcome : Bool)
    (claimedAmount : Nat) : Bool :=
  original.1 == claimedOutcome && original.2 == claimedAmount

/-! ## Record-set helpers -/

/-- Look up a bettor's record. -/
def getBet : List (Nat × BetRecord) → Nat → Option BetRecord
  | [], _ => none
  | p :: t, b => if p.1 = b then some p.2 else getBet t b

/-- Overwrite a bettor's record. -/
def setBet (l : List (Nat × BetRecord)) (b : Nat) (r : BetRecord) :
    List (Nat × BetRecord) :=
  l.map (fun p => if p.1 = b then (b, r) else p)

/-- Total lamports transferred out of the vault to a bettor. -/
def recvOf : List (Nat × Nat) → Nat → Nat
  | [], _ => 0
  | p :: t, b => (if p.1 = b then p.2 else 0) + recvOf t b

/-- Whether a computation offset is not already in use. -/
def offsetFree (pending : List PendingComp) (o : Nat) : Bool :=
  pending.all (fun p => p.offset != o)

/-- Find the outstanding computation with the given offset. -/
def findComp : List PendingComp → Nat → Option PendingComp
  | [], _ => none
  | p :: t, o => if p.offset = o then some p else findComp t o

/-- Remove the outstanding computation with the given offset. -/
def removeComp (pending : List PendingComp) (o : Nat) : List PendingComp :=
  pending.filter (fun p => p.offset != o)

/-! ## Entry points (lib.rs), one function per instruction.

Each function first checks the Anchor account constraints of its accounts
struct, then runs the instruction body; any failure aborts with no state
change (the ledger substrate executes each entry point atomically). -/

/-- `create_market`: validate the question length, the deadline and the fee,
then build the fresh market and vault exactly as lib.rs initializes them. -/
def createMarket (marketId authority : Nat) (question : String)
    (resolutionTime : Int) (oracleTypeByte feeBps : Nat) (now : Int) :
    Except Err Chain :=
  if question.length > MAX_QUESTION_LEN then .error .invalidInput
  else if resolutionTime ≤ now then .error .invalidInput
  else if feeBps > 1000 then .error .invalidInput
  else .ok
    { market :=
      { marketId := marketId
        authority := authority
        question := question
        resolutionTime := resolutionTime
        createdAt := now
        feeBps := feeBps
        oracleType := OracleType.fromByte oracleTypeByte
        status := .Open
        outcome := none
        encState := ⟨0, 0, 0⟩
        stateNonce := 0
        mpcInitialized := false
        revealedYesPool := 0
        revealedNoPool := 0
        revealedTotalPool := 0
        betCount := 0
        totalLiquidityApprox := 0 }
      vault := ⟨0, 0⟩
      bets := []
      pending := []
      transfers := []
      now := now }

/-- `init_market_state`: requires the aggregate uninitialized (account
constraint) and the caller to be the authority, then queues the
`init_market_state` computation. -/
def initMarketStateStep (c : Chain) (caller offset nonce : Nat) :
    Except Err Chain :=
  if c.market.mpcInitialized then .error .mpcAlreadyInitialized
  else if caller != c.market.authority then .error .unauthorized
  else if ¬ offsetFree c.pending offset then .error .accountError
  else .ok { c with pending := ⟨offset, .initMarketStateComp nonce⟩ :: c.pending }

/-- `init_market_state_callback`: consume the matching computation and store the
fresh zero aggregate, its nonce, and the initialized flag.  The callback
accounts struct places no constraint on the market's status. -/
def initMarketStateCallbackStep (c : Chain) (offset mpcNonce : Nat) :
    Except Err Chain :=
  match findComp c.pending offset with
  | some ⟨_, .initMarketStateComp _⟩ =>
      .ok { c with
        market := { c.market with
          encState := initMarketStateCircuit
          stateNonce := mpcNonce
          mpcInitialized := true }
        pending := removeComp c.pending offset }
  | _ => .error .accountError

/-- `place_bet`: the bet record PDA is freshly initialized (so a bettor has at
most one record per market), the market must be Open, initialized, and before
the deadline, the stake must be within bounds; the stake is transferred to the
vault, the record created Pending, and the `place_bet` computation queued with
the market's current `state_nonce`. -/
def placeBetStep (c : Chain) (bettor offset : Nat) (encOutcome : Bool)
    (encAmount userPubkey userNonce betLamports : Nat) : Except Err Chain :=
  if (getBet c.bets bettor).isSome then .error .accountError
  else if ¬ offsetFree c.pending offset then .error .accountError
  else if c.market.status != .Open then .error .marketNotOpen
  else if ¬ c.market.mpcInitialized then .error .mpcNotInitialized
  else if ¬ (c.now < c.market.resolutionTime) then .error .bettingPeriodEnded
  else if betLamports < MIN_BET_LAMPORTS then .error .betAmountTooLow
  else if betLamports > MAX_BET_LAMPORTS then .error .betAmountTooHigh
  else if c.vault.totalDeposits + betLamports ≥ U64 then .error .overflow
  else
    let r : BetRecord :=
      { bettor := bettor
        betIndex := c.market.betCount
        encryptedBet := (encOutcome, encAmount)
        userPubkey := userPubkey
        userNonce := userNonce
        betLamports := betLamports
        status := .Pending
        placedAt := c.now
        confirmedAt := none
        claimed := false
        payoutAmount := none }
    .ok { c with
      vault := { c.vault with totalDeposits := c.vault.totalDeposits + betLamports }
      bets := (bettor, r) :: c.bets
      pending :=
        ⟨offset, .placeBetComp bettor encOutcome encAmount c.market.stateNonce⟩
          :: c.pending }

/-- `place_bet_callback`: consume the matching computation, fold the bet into
the encrypted aggregate via the `place_bet` circuit, store the new nonce,
increment the market's bet counter (checked u32 add), and confirm the record.
The callback accounts struct places no constraint on either status. -/
def placeBetCallbackStep (c : Chain) (offset mpcNonce : Nat) :
    Except Err Chain :=
  match findComp c.pending offset with
  | some ⟨_, .placeBetComp b bo ba _⟩ =>
    match getBet c.bets b with
    | some r =>
      if c.market.betCount + 1 ≥ U32 then .error .overflow
      else .ok { c with
        market := { c.market with
          encState := placeBetCircuit bo ba c.market.encState
          stateNonce := mpcNonce
          betCount := c.market.betCount + 1 }
        bets := setBet c.bets b
          { r with status := .Confirmed, confirmedAt := some c.now }
        pending := removeComp c.pending offset }
    | none => .error .accountError
  | _ => .error .accountError

/-- `close_market`: the market must be Open (account constraint); the authority
may close at any time, anyone may close once the deadline has passed. -/
def closeMarketStep (c : Chain) (caller : Nat) : Except Err Chain :=
  if c.market.status != .Open then .error .marketNotOpen
  else if caller == c.market.authority || c.market.resolutionTime ≤ c.now then
    .ok { c with market := { c.market with status := .Closed } }
  else .error .unauthorized

/-- `resolve_market`: the market must be Closed and initialized; every oracle
arm requires the caller to be the authority; the market moves to Resolving and
the `calculate_payout_pools` computation is queued with the current nonce. -/
def resolveMarketStep (c : Chain) (caller offset : Nat) (outcome : Bool) :
    Except Err Chain :=
  if c.market.status != .Closed then .error .marketNotClosed
  else if ¬ c.market.mpcInitialized then .error .mpcNotInitialized
  else if caller != c.market.authority then .error .unauthorized
  else if ¬ offsetFree c.pending offset then .error .accountError
  else .ok { c with
    market := { c.market with status := .Resolving }
    pending := ⟨offset, .calcPayoutComp outcome c.market.stateNonce⟩ :: c.pending }

/-- `calculate_payout_pools_callback`: consume the matching computation, run the
circuit on the aggregate, store the outcome, mark the market Resolved, and store
the revealed pools (un-bucketing winning/losing back into yes/no).  The callback
accounts struct places no constraint on the market's status. -/
def calcPayoutCallbackStep (c : Chain) (offset : Nat) : Except Err Chain :=
  match findComp c.pending offset with
  | some ⟨_, .calcPayoutComp outcome _⟩ =>
    let p := calculatePayoutPoolsCircuit c.market.encState outcome
    .ok { c with
      market := { c.market with
        outcome := some p.outcome
        status := .Resolved
        revealedYesPool := if p.outcome then p.winningPool else p.losingPool
        revealedNoPool := if p.outcome then p.losingPool else p.winningPool
        revealedTotalPool := p.totalPool }
      pending := removeComp c.pending offset }
  | _ => .error .accountError

/-- The fee computation of `claim_payout` (lib.rs line 667):
`(revealed_total_pool as u128 * fee_bps as u128 / 10000) as u64`. -/
def feeOf (revealedTotal feeBps : Nat) : Nat :=
  revealedTotal * feeBps / 10000 % U64

/-- The payout computation of `claim_payout` (lib.rs lines 658-679): winners get
`claimed_amount * (total − fee) / winning_pool` with u128 intermediates narrowed
to u64, where the subtraction of the fee saturates; losers and the degenerate
zero winning pool get 0. -/
def payoutCalc (claimedOutcome : Bool) (claimedAmount : Nat) (winning : Bool)
    (revealedYes revealedNo revealedTotal feeBps : Nat) : Nat :=
  if claimedOutcome == winning then
    let winningPool := if winning then revealedYes else revealedNo
    let payoutPool := revealedTotal - feeOf revealedTotal feeBps
    if winningPool > 0 then claimedAmount * payoutPool / winningPool % U64
    else 0
  else 0

/-- The payout formula exactly as the specification words it (§4.4): losers get
0; winners get `floor(claimed_amount * distributable / winning_pool)` where
`winning_pool` is the revealed yes pool if YES won else the revealed no pool,
`fee = floor(revealed_total * fee_bps / 10000)` and
`distributable = revealed_total − fee`; 0 when the winning pool is 0.
Stated over unbounded naturals; to be compared against `payoutCalc`, which is
the code's computation with its u128 intermediates narrowed to u64. -/
def specPayout (claimedOutcome : Bool) (claimedAmount : Nat) (winning : Bool)
    (revealedYes revealedNo revealedTotal feeBps : Nat) : Nat :=
  if claimedOutcome ≠ winning then 0
  else
    let winningPool := if winning then revealedYes else revealedNo
    let fee := revealedTotal * feeBps / 10000
    let distributable := revealedTotal - fee
    if winningPool = 0 then 0
    else claimedAmount * distributable / winningPool

/-- `claim_payout`: the market must be Resolved (account constraint), the
caller's record must exist, be unclaimed and Confirmed (account constraints);
the claimed amount must equal the stored plaintext stake; the payout is
computed by `payoutCalc`, transferred from the vault when positive (with a
checked add on the withdrawal counter), and the record is marked Claimed. -/
def claimPayoutStep (c : Chain) (bettor : Nat) (claimedOutcome : Bool)
    (claimedAmount : Nat) : Except Err Chain :=
  if c.market.status != .Resolved then .error .marketNotResolved
  else match getBet c.bets bettor with
  | none => .error .accountError
  | some r =>
    if r.claimed then .error .betAlreadyClaimed
    else if r.status != .Confirmed then .error .betNotConfirmed
    else match c.market.outcome with
    | none => .error .marketNotResolved
    | some winning =>
      if claimedAmount != r.betLamports then .error .invalidBetClaim
      else
        let payout := payoutCalc claimedOutcome claimedAmount winning
          c.market.revealedYesPool c.market.revealedNoPool
          c.market.revealedTotalPool c.market.feeBps
        if payout = 0 then
          .ok { c with
            bets := setBet c.bets bettor
              { r with claimed := true, payoutAmount := some payout,
                       status := .Claimed } }
        else if c.vault.totalWithdrawals + payout ≥ U64 then .error .overflow
        else .ok { c with
          vault := { c.vault with
            totalWithdrawals := c.vault.totalWithdrawals + payout }
          transfers := (bettor, payout) :: c.transfers
          bets := setBet c.bets bettor
            { r with claimed := true, payoutAmount := some payout,
                     status := .Claimed } }

/-- `cancel_market`: account constraints only — the caller is the authority and
the market is neither Resolved nor Cancelled; the market becomes Cancelled. -/
def cancelMarketStep (c : Chain) (caller : Nat) : Except Err Chain :=
  if caller != c.market.authority then .error .unauthorized
  else if c.market.status == .Resolved then .error .marketAlreadyResolved
  else if c.market.status == .Cancelled then .error .marketCancelled
  else .ok { c with market := { c.market with status := .Cancelled } }

/-- `claim_refund`: the market must be Cancelled and the record unclaimed
(account constraints; the record's status is not constrained); the original
stake is transferred back (with a checked add on the withdrawal counter) and
the record is marked Refunded. -/
def claimRefundStep (c : Chain) (bettor : Nat) : Except Err Chain :=
  if c.market.status != .Cancelled then .error .marketCancelled
  else match getBet c.bets bettor with
  | none => .error .accountError
  | some r =>
    if r.claimed then .error .betAlreadyClaimed
    else if c.vault.totalWithdrawals + r.betLamports ≥ U64 then .error .overflow
    else .ok { c with
      vault := { c.vault with
        totalWithdrawals := c.vault.totalWithdrawals + r.betLamports }
      transfers := (bettor, r.betLamports) :: c.transfers
      bets := setBet c.bets bettor
        { r with claimed := true, payoutAmount := some r.betLamports,
                 status := .Refunded } }

/-! ## The transition system -/

/-- One invocation of an entry point or callback, or the clock advancing. -/
inductive Action
  | initMarketState (caller offset nonce : Nat)
  | initMarketStateCallback (offset mpcNonce : Nat)
  | placeBet (bettor offset : Nat) (encOutcome : Bool)
      (encAmount userPubkey userNonce betLamports : Nat)
  | placeBetCallback (offset mpcNonce : Nat)
  | closeMarket (caller : Nat)
  | resolveMarket (caller offset : Nat) (outcome : Bool)
  | calcPayoutCallback (offset : Nat)
  | claimPayout (bettor : Nat) (claimedOutcome : Bool) (claimedAmount : Nat)
  | cancelMarket (caller : Nat)
  | claimRefund (bettor : Nat)
  | advanceClock (dt : Nat)
deriving DecidableEq, Inhabited

/-- Dispatch an action to its entry point. -/
def step (c : Chain) : Action → Except Err Chain
  | .initMarketState caller offset nonce => initMarketStateStep c caller offset nonce
  | .initMarketStateCallback offset mpcNonce =>
      initMarketStateCallbackStep c offset mpcNonce
  | .placeBet bettor offset eo ea pk un bl =>
      placeBetStep c bettor offset eo ea pk un bl
  | .placeBetCallback offset mpcNonce => placeBetCallbackStep c offset mpcNonce
  | .closeMarket caller => closeMarketStep c caller
  | .resolveMarket caller offset outcome => resolveMarketStep c caller offset outcome
  | .calcPayoutCallback offset => calcPayoutCallbackStep c offset
  | .claimPayout bettor co ca => claimPayoutStep c bettor co ca
  | .cancelMarket caller => cancelMarketStep c caller
  | .claimRefund bettor => claimRefundStep c bettor
  | .advanceClock dt => .ok { c with now := c.now + dt }

/-- Run an action, leaving the chain unchanged when the transaction fails. -/
def stepOk (c : Chain) (a : Action) : Chain :=
  match step c a with
  | .ok c1 => c1
  | .error _ => c

/-- Run a sequence of transactions. -/
def run (c : Chain) (tr : List Action) : Chain := tr.foldl stepOk c

/-! ## Concrete scenarios -/

/-- The market of Scenario A: authority 100, deadline now+3600, fee 500 bps. -/
def chain0 : Chain :=
  match createMarket 1 100 "q" 3600 0 500 0 with
  | .ok c => c
  | .error _ => default

/-- Scenario A (§8 of the spec): init the aggregate, bettor 1 stakes 2,000,000
on YES, bettor 2 stakes 1,000,000 on NO, close, resolve YES. -/
def traceA : List Action :=
  [ .initMarketState 100 1 7
  , .initMarketStateCallback 1 11
  , .placeBet 1 2 true 2000000 41 51 2000000
  , .placeBetCallback 2 12
  , .placeBet 2 3 false 1000000 42 52 1000000
  , .placeBetCallback 3 13
  , .closeMarket 100
  , .resolveMarket 100 4 true
  , .calcPayoutCallback 4 ]

/-- The resolved Scenario A chain. -/
def chainA : Chain := run chain0 traceA

/-- Scenario A after both bettors claim (bettor 1 claims YES, bettor 2 NO). -/
def chainAClaimed : Chain :=
  run chainA [ .claimPayout 1 true 2000000, .claimPayout 2 false 1000000 ]

/-- Whether a queued computation mutates the market's encrypted aggregate
(its callback overwrites `encrypted_state` and `state_nonce`). -/
def isAggMutating : CompKind → Bool
  | .initMarketStateComp _ => true
  | .placeBetComp _ _ _ _ => true
  | _ => false

/-- The `state_nonce` a queued computation captured at queue time, if any. -/
def capturedNonceOf : CompKind → Option Nat
  | .placeBetComp _ _ _ n => some n
  | .calcPayoutComp _ n => some n
  | _ => none

/-- Two bets queued on the same market before either callback lands. -/
def traceRace : List Action :=
  [ .initMarketState 100 1 7
  , .initMarketStateCallback 1 11
  , .placeBet 1 2 true 2000000 41 51 2000000
  , .placeBet 2 3 false 1000000 42 52 1000000 ]

/-- The chain after `traceRace`. -/
def chainRace : Chain := run chain0 traceRace

/-- An honest YES bettor and an honest NO bettor, 1,000,000 lamports each;
the market resolves YES, and then BOTH bettors claim with
`claimed_outcome = YES` and their true stakes. -/
def traceDoubleWin : List Action :=
  [ .initMarketState 100 1 7
  , .initMarketStateCallback 1 11
  , .placeBet 1 2 true 1000000 41 51 1000000
  , .placeBetCallback 2 12
  , .placeBet 2 3 false 1000000 42 52 1000000
  , .placeBetCallback 3 13
  , .closeMarket 100
  , .resolveMarket 100 4 true
  , .calcPayoutCallback 4
  , .claimPayout 1 true 1000000
  , .claimPayout 2 true 1000000 ]

/-- The chain after `traceDoubleWin`. -/
def chainDoubleWin : Chain := run chain0 traceDoubleWin

/-- A market driven to Resolving: init, close by the authority, resolve. -/
def traceResolving : List Action :=
  [ .initMarketState 100 1 7
  , .initMarketStateCallback 1 11
  , .closeMarket 100
  , .resolveMarket 100 2 true ]

/-- The chain after `traceResolving`. -/
def chainResolving : Chain := run chain0 traceResolving

/-- Scenario C: a bet is placed and confirmed, then the creator cancels. -/
def traceCancel : List Action :=
  [ .initMarketState 100 1 7
  , .initMarketStateCallback 1 11
  , .placeBet 1 2 true 2000000 41 51 2000000
  , .placeBetCallback 2 12
  , .cancelMarket 100 ]

/-- The chain after `traceCancel`. -/
def chainCancelled : Chain := run chain0 traceCancel

/-- Erase the stored encrypted bet ciphertext of a record. -/
def eraseRec (r : BetRecord) : BetRecord :=
  { r with encryptedBet := (false, 0) }

/-- Erase the stored encrypted bet ciphertext of every record.  Two chains with
the same erasure differ at most in stored `encrypted_bet` data. -/
def eraseEnc (c : Chain) : Chain :=
  { c with bets := c.bets.map (fun p => (p.1, eraseRec p.2)) }

/-- The market transitions the code can actually take: the §4.3 graph
(`Open → Closed → Resolving → Resolved`, cancel from Open or Closed) extended
with cancel from Resolving and with the payout-pools callback landing on a
market cancelled while Resolving. -/
def MarketEdgeOK : MarketStatus → MarketStatus → Bool
  | .Open, .Closed => true
  | .Closed, .Resolving => true
  | .Resolving, .Resolved => true
  | .Cancelled, .Resolved => true
  | .Open, .Cancelled => true
  | .Closed, .Cancelled => true
  | .Resolving, .Cancelled => true
  | s, t => s == t

/-- The bet-record transitions the code can actually take: the §4.3 graph
(`Pending → Confirmed → Claimed`, refund from Pending or Confirmed) extended
with the place-bet callback landing on a record already refunded on a
cancelled market. -/
def BetEdgeOK : BetStatus → BetStatus → Bool
  | .Pending, .Confirmed => true
  | .Confirmed, .Claimed => true
  | .Pending, .Refunded => true
  | .Confirmed, .Refunded => true
  | .Refunded, .Confirmed => true
  | s, t => s == t

/-- The bettor whose record an outstanding computation's callback will touch. -/
def compBettor : CompKind → Option Nat
  | .placeBetComp b _ _ _ => some b
  | _ => none

/-- Whether an outstanding computation is a payout-pools computation. -/
def isCalcComp : CompKind → Bool
  | .calcPayoutComp _ _ => true
  | _ => false

/-- Well-formedness of a chain state, preserved by every transaction and
established by `create_market`:
per-bettor outstanding place-bet computations have an existing record that is
still Pending or Refunded and are unique per bettor; a payout-pools computation
is outstanding only at or after Resolving (or after a cancel); a Claimed or
Refunded record has its claimed flag set. -/
structure WF (c : Chain) : Prop where
  betPendingRecord : ∀ p ∈ c.pending, ∀ b, compBettor p.kind = some b →
    ∃ r, getBet c.bets b = some r ∧ (r.status = .Pending ∨ r.status = .Refunded)
  betPendingUnique : ∀ p ∈ c.pending, ∀ q ∈ c.pending, ∀ b,
    compBettor p.kind = some b → compBettor q.kind = some b → p = q
  calcPending : ∀ p ∈ c.pending, isCalcComp p.kind = true →
    c.market.status = .Resolving ∨ c.market.status = .Cancelled ∨
      c.market.status = .Resolved
  claimedStatus : ∀ b r, getBet c.bets b = some r →
    (r.status = .Claimed ∨ r.status = .Refunded) → r.claimed = true

/-! ## Helper lemmas about the record-set operations -/

theorem getBet_cons (b0 : Nat) (r0 : BetRecord) (l : List (Nat × BetRecord))
    (b : Nat) :
    getBet ((b0, r0) :: l) b = if b0 = b then some r0 else getBet l b := rfl

theorem getBet_setBet (l : List (Nat × BetRecord)) (b0 b : Nat) (r0 : BetRecord) :
    getBet (setBet l b0 r0) b =
      if b0 = b then (getBet l b0).map (fun _ => r0) else getBet l b := by
  induction l with
  | nil => by_cases h : b0 = b <;> simp [setBet, getBet, h]
  | cons p t ih =>
    obtain ⟨k, v⟩ := p
    simp only [setBet, List.map] at ih ⊢
    by_cases hk : k = b0
    · subst hk
      by_cases hb : k = b
      · subst hb
        simp [getBet, ih]
      · simp [getBet, hb, ih]
    · by_cases hb : k = b
      · subst hb
        have hb0 : b0 ≠ k := fun h => hk h.symm
        simp [getBet, hk, hb0]
      · simp [getBet, hk, hb, ih]

theorem recvOf_cons (b0 x : Nat) (l : List (Nat × Nat)) (b : Nat) :
    recvOf ((b0, x) :: l) b = (if b0 = b then x else 0) + recvOf l b := rfl

theorem findComp_mem {pending : List PendingComp} {o : Nat} {p : PendingComp}
    (h : findComp pending o = some p) : p ∈ pending := by
  induction pending with
  | nil => exact absurd h (by simp [findComp])
  | cons q t ih =>
    by_cases hq : q.offset = o
    · simp only [findComp, if_pos hq] at h
      cases h
      exact List.mem_cons_self _ _
    · simp only [findComp, if_neg hq] at h
      exact List.mem_cons_of_mem q (ih h)

theorem findComp_offset {pending : List PendingComp} {o : Nat} {p : PendingComp}
    (h : findComp pending o = some p) : p.offset = o := by
  induction pending with
  | nil => exact absurd h (by simp [findComp])
  | cons q t ih =>
    by_cases hq : q.offset = o
    · simp only [findComp, if_pos hq] at h
      cases h
      exact hq
    · simp only [findComp, if_neg hq] at h
      exact ih h

theorem mem_removeComp {pending : List PendingComp} {o : Nat} {p : PendingComp}
    (h : p ∈ removeComp pending o) : p ∈ pending ∧ p.offset ≠ o := by
  simp only [removeComp, List.mem_filter, bne_iff_ne, ne_eq] at h
  exact ⟨h.1, h.2⟩

/-! ## Inversion lemmas: a successful entry point implies its preconditions
and determines the successor state. -/

theorem initMarketStateStep_inv {c : Chain} {caller offset nonce : Nat}
    {c2 : Chain} (h : initMarketStateStep c caller offset nonce = .ok c2) :
    c.market.mpcInitialized = false ∧ caller = c.market.authority ∧
    offsetFree c.pending offset = true ∧
    c2 = { c with pending := ⟨offset, .initMarketStateComp nonce⟩ :: c.pending } := by
  unfold initMarketStateStep at h
  by_cases h1 : c.market.mpcInitialized = true
  · rw [if_pos h1] at h
    exact absurd h (by simp)
  · rw [if_neg h1] at h
    by_cases h2 : (caller != c.market.authority) = true
    · rw [if_pos h2] at h
      exact absurd h (by simp)
    · rw [if_neg h2] at h
      by_cases h3 : offsetFree c.pending offset = true
      · rw [if_neg (by simp [h3])] at h
        cases h
        exact ⟨by simpa using h1, by simpa using h2, h3, rfl⟩
      · rw [if_pos (by simpa using h3)] at h
        exact absurd h (by simp)

theorem initMarketStateCallbackStep_inv {c : Chain} {offset mpcNonce : Nat}
    {c2 : Chain} (h : initMarketStateCallbackStep c offset mpcNonce = .ok c2) :
    ∃ p : PendingComp, findComp c.pending offset = some p ∧
      (∃ n0, p.kind = .initMarketStateComp n0) ∧
      c2 = { c with
        market := { c.market with
          encState := initMarketStateCircuit
          stateNonce := mpcNonce
          mpcInitialized := true }
        pending := removeComp c.pending offset } := by
  unfold initMarketStateCallbackStep at h
  rcases hf : findComp c.pending offset with - | p
  · rw [hf] at h
    exact absurd h (by simp)
  · rw [hf] at h
    obtain ⟨po, pk⟩ := p
    cases pk with
    | initMarketStateComp n0 =>
        cases h
        exact ⟨⟨po, .initMarketStateComp n0⟩, rfl, ⟨n0, rfl⟩, rfl⟩
    | placeBetComp b bo ba n => exact absurd h (by simp)
    | calcPayoutComp oc n => exact absurd h (by simp)
    | verifyBetClaimComp => exact absurd h (by simp)

theorem closeMarketStep_inv {c : Chain} {caller : Nat} {c2 : Chain}
    (h : closeMarketStep c caller = .ok c2) :
    c.market.status = .Open ∧
    (caller = c.market.authority ∨ c.market.resolutionTime ≤ c.now) ∧
    c2 = { c with market := { c.market with status := .Closed } } := by
  unfold closeMarketStep at h
  by_cases h1 : (c.market.status != MarketStatus.Open) = true
  · rw [if_pos h1] at h
    exact absurd h (by simp)
  · rw [if_neg h1] at h
    by_cases h2 : (caller == c.market.authority || c.market.resolutionTime ≤ c.now) = true
    · rw [if_pos h2] at h
      cases h
      refine ⟨by simpa using h1, ?_, rfl⟩
      rcases Bool.or_eq_true .. |>.mp h2 with h3 | h3
      · exact Or.inl (by simpa using h3)
      · exact Or.inr (by simpa using h3)
    · rw [if_neg h2] at h
      exact absurd h (by simp)

theorem resolveMarketStep_inv {c : Chain} {caller offset : Nat} {outcome : Bool}
    {c2 : Chain} (h : resolveMarketStep c caller offset outcome = .ok c2) :
    c.market.status = .Closed ∧ c.market.mpcInitialized = true ∧
    caller = c.market.authority ∧ offsetFree c.pending offset = true ∧
    c2 = { c with
      market := { c.market with status := .Resolving }
      pending := ⟨offset, .calcPayoutComp outcome c.market.stateNonce⟩ :: c.pending } := by
  unfold resolveMarketStep at h
  by_cases h1 : (c.market.status != MarketStatus.Closed) = true
  · rw [if_pos h1] at h
    exact absurd h (by simp)
  · rw [if_neg h1] at h
    by_cases h2 : c.market.mpcInitialized = true
    · rw [if_neg (by simp [h2])] at h
      by_cases h3 : (caller != c.market.authority) = true
      · rw [if_pos h3] at h
        exact absurd h (by simp)
      · rw [if_neg h3] at h
        by_cases h4 : offsetFree c.pending offset = true
        · rw [if_neg (by simp [h4])] at h
          cases h
          exact ⟨by simpa using h1, h2, by simpa using h3, h4, rfl⟩
        · rw [if_pos (by simpa using h4)] at h
          exact absurd h (by simp)
    · rw [if_pos (by simpa using h2)] at h
      exact absurd h (by simp)

theorem calcPayoutCallbackStep_inv {c : Chain} {offset : Nat} {c2 : Chain}
    (h : calcPayoutCallbackStep c offset = .ok c2) :
    ∃ p : PendingComp, findComp c.pending offset = some p ∧
      ∃ outcome n0, p.kind = .calcPayoutComp outcome n0 ∧
      c2 = { c with
        market :=
          (let q := calculatePayoutPoolsCircuit c.market.encState outcome
           { c.market with
             outcome := some q.outcome
             status := .Resolved
             revealedYesPool := if q.outcome then q.winningPool else q.losingPool
             revealedNoPool := if q.outcome then q.losingPool else q.winningPool
             revealedTotalPool := q.totalPool })
        pending := removeComp c.pending offset } := by
  unfold calcPayoutCallbackStep at h
  rcases hf : findComp c.pending offset with - | p
  · rw [hf] at h
    exact absurd h (by simp)
  · rw [hf] at h
    obtain ⟨po, pk⟩ := p
    cases pk with
    | initMarketStateComp n0 => exact absurd h (by simp)
    | placeBetComp b bo ba n => exact absurd h (by simp)
    | calcPayoutComp oc n =>
        cases h
        exact ⟨⟨po, .calcPayoutComp oc n⟩, rfl, oc, n, rfl, rfl⟩
    | verifyBetClaimComp => exact absurd h (by simp)

theorem cancelMarketStep_inv {c : Chain} {caller : Nat} {c2 : Chain}
    (h : cancelMarketStep c caller = .ok c2) :
    caller = c.market.authority ∧ c.market.status ≠ .Resolved ∧
    c.market.status ≠ .Cancelled ∧
    c2 = { c with market := { c.market with status := .Cancelled } } := by
  unfold cancelMarketStep at h
  by_cases h1 : (caller != c.market.authority) = true
  · rw [if_pos h1] at h
    exact absurd h (by simp)
  · rw [if_neg h1] at h
    by_cases h2 : (c.market.status == MarketStatus.Resolved) = true
    · rw [if_pos h2] at h
      exact absurd h (by simp)
    · rw [if_neg h2] at h
      by_cases h3 : (c.market.status == MarketStatus.Cancelled) = true
      · rw [if_pos h3] at h
        exact absurd h (by simp)
      · rw [if_neg h3] at h
        cases h
        exact ⟨by simpa using h1, by simpa using h2, by simpa using h3, rfl⟩

theorem createMarket_inv {marketId authority : Nat} {question : String}
    {resolutionTime : Int} {oracleTypeByte feeBps : Nat} {now : Int} {c0 : Chain}
    (h : createMarket marketId authority question resolutionTime oracleTypeByte
      feeBps now = .ok c0) :
    question.length ≤ MAX_QUESTION_LEN ∧ now < resolutionTime ∧
    feeBps ≤ 1000 ∧
    c0 = { market :=
             { marketId := marketId
               authority := authority
               question := question
               resolutionTime := resolutionTime
               createdAt := now
               feeBps := feeBps
               oracleType := OracleType.fromByte oracleTypeByte
               status := .Open
               outcome := none
               encState := ⟨0, 0, 0⟩
               stateNonce := 0
               mpcInitialized := false
               revealedYesPool := 0
               revealedNoPool := 0
               revealedTotalPool := 0
               betCount := 0
               totalLiquidityApprox := 0 }
           vault := ⟨0, 0⟩
           bets := []
           pending := []
           transfers := []
           now := now } := by
  unfold createMarket at h
  by_cases h1 : question.length > MAX_QUESTION_LEN
  · rw [if_pos h1] at h
    exact absurd h (by simp)
  · rw [if_neg h1] at h
    by_cases h2 : resolutionTime ≤ now
    · rw [if_pos h2] at h
      exact absurd h (by simp)
    · rw [if_neg h2] at h
      by_cases h3 : feeBps > 1000
      · rw [if_pos h3] at h
        exact absurd h (by simp)
      · rw [if_neg h3] at h
        cases h
        exact ⟨by omega, by omega, by omega, rfl⟩

theorem placeBetStep_inv {c : Chain} {bettor offset : Nat} {eo : Bool}
    {ea pk un bl : Nat} {c2 : Chain}
    (h : placeBetStep c bettor offset eo ea pk un bl = .ok c2) :
    getBet c.bets bettor = none ∧ offsetFree c.pending offset = true ∧
    c.market.status = .Open ∧ c.market.mpcInitialized = true ∧
    c.now < c.market.resolutionTime ∧ MIN_BET_LAMPORTS ≤ bl ∧
    bl ≤ MAX_BET_LAMPORTS ∧ c.vault.totalDeposits + bl < U64 ∧
    c2 = { c with
      vault := { c.vault with totalDeposits := c.vault.totalDeposits + bl }
      bets := (bettor,
        { bettor := bettor, betIndex := c.market.betCount,
          encryptedBet := (eo, ea), userPubkey := pk, userNonce := un,
          betLamports := bl, status := .Pending, placedAt := c.now,
          confirmedAt := none, claimed := false, payoutAmount := none }) :: c.bets
      pending :=
        ⟨offset, .placeBetComp bettor eo ea c.market.stateNonce⟩ :: c.pending } := by
  unfold placeBetStep at h
  by_cases h1 : (getBet c.bets bettor).isSome = true
  · rw [if_pos h1] at h
    exact absurd h (by simp)
  · rw [if_neg h1] at h
    by_cases h2 : offsetFree c.pending offset = true
    · rw [if_neg (by simp [h2])] at h
      by_cases h3 : (c.market.status != MarketStatus.Open) = true
      · rw [if_pos h3] at h
        exact absurd h (by simp)
      · rw [if_neg h3] at h
        by_cases h4 : c.market.mpcInitialized = true
        · rw [if_neg (by simp [h4])] at h
          by_cases h5 : c.now < c.market.resolutionTime
          · rw [if_neg (by simp [h5])] at h
            by_cases h6 : bl < MIN_BET_LAMPORTS
            · rw [if_pos h6] at h
              exact absurd h (by simp)
            · rw [if_neg h6] at h
              by_cases h7 : bl > MAX_BET_LAMPORTS
              · rw [if_pos h7] at h
                exact absurd h (by simp)
              · rw [if_neg h7] at h
                by_cases h8 : c.vault.totalDeposits + bl ≥ U64
                · rw [if_pos h8] at h
                  exact absurd h (by simp)
                · rw [if_neg h8] at h
                  cases h
                  exact ⟨Option.not_isSome_iff_eq_none.mp h1, h2,
                    by simpa using h3, h4, h5, by omega, by omega, by omega, rfl⟩
          · rw [if_pos h5] at h
            exact absurd h (by simp)
        · rw [if_pos (by simpa using h4)] at h
          exact absurd h (by simp)
    · rw [if_pos (by simpa using h2)] at h
      exact absurd h (by simp)

theorem placeBetCallbackStep_inv {c : Chain} {offset mpcNonce : Nat} {c2 : Chain}
    (h : placeBetCallbackStep c offset mpcNonce = .ok c2) :
    ∃ p b, ∃ bo : Bool, ∃ ba n0, findComp c.pending offset = some p ∧
      p.kind = .placeBetComp b bo ba n0 ∧
      ∃ r, getBet c.bets b = some r ∧ c.market.betCount + 1 < U32 ∧
      c2 = { c with
        market := { c.market with
          encState := placeBetCircuit bo ba c.market.encState
          stateNonce := mpcNonce
          betCount := c.market.betCount + 1 }
        bets := setBet c.bets b
          { r with status := .Confirmed, confirmedAt := some c.now }
        pending := removeComp c.pending offset } := by
  unfold placeBetCallbackStep at h
  split at h
  · rename_i po b bo ba n heq
    split at h
    · rename_i r heq2
      split at h
      · exact absurd h (by simp)
      · rename_i hcnt
        cases h
        exact ⟨⟨po, .placeBetComp b bo ba n⟩, b, bo, ba, n, heq, rfl,
          r, heq2, by omega, rfl⟩
    · exact absurd h (by simp)
  · exact absurd h (by simp)

theorem claimPayoutStep_inv {c : Chain} {b : Nat} {o : Bool} {a : Nat}
    {c2 : Chain} (h : claimPayoutStep c b o a = .ok c2) :
    c.market.status = .Resolved ∧
    ∃ r, ∃ w : Bool, ∃ P : Nat, getBet c.bets b = some r ∧ r.claimed = false ∧
      r.status = .Confirmed ∧ c.market.outcome = some w ∧ a = r.betLamports ∧
      P = payoutCalc o a w c.market.revealedYesPool c.market.revealedNoPool
            c.market.revealedTotalPool c.market.feeBps ∧
      ((P = 0 ∧ c2 = { c with
          bets := setBet c.bets b
            { r with claimed := true, payoutAmount := some P,
                     status := .Claimed } }) ∨
       (0 < P ∧ c.vault.totalWithdrawals + P < U64 ∧
        c2 = { c with
          vault := { c.vault with
            totalWithdrawals := c.vault.totalWithdrawals + P }
          transfers := (b, P) :: c.transfers
          bets := setBet c.bets b
            { r with claimed := true, payoutAmount := some P,
                     status := .Claimed } })) := by
  unfold claimPayoutStep at h
  split at h
  · exact absurd h (by simp)
  · rename_i h1
    split at h
    · exact absurd h (by simp)
    · rename_i r hg
      split at h
      · exact absurd h (by simp)
      · rename_i h2
        split at h
        · exact absurd h (by simp)
        · rename_i h3
          split at h
          · exact absurd h (by simp)
          · rename_i w ho
            split at h
            · exact absurd h (by simp)
            · rename_i h4
              dsimp only [] at h
              split at h
              · rename_i h5
                cases h
                exact ⟨by simpa using h1, r, w, _, hg, by simpa using h2,
                  by simpa using h3, ho, by simpa using h4, rfl,
                  Or.inl ⟨h5, rfl⟩⟩
              · rename_i h5
                split at h
                · exact absurd h (by simp)
                · rename_i h6
                  cases h
                  exact ⟨by simpa using h1, r, w, _, hg, by simpa using h2,
                    by simpa using h3, ho, by simpa using h4, rfl,
                    Or.inr ⟨Nat.pos_of_ne_zero h5, by omega, rfl⟩⟩

theorem claimRefundStep_inv {c : Chain} {b : Nat} {c2 : Chain}
    (h : claimRefundStep c b = .ok c2) :
    c.market.status = .Cancelled ∧
    ∃ r, getBet c.bets b = some r ∧ r.claimed = false ∧
      c.vault.totalWithdrawals + r.betLamports < U64 ∧
      c2 = { c with
        vault := { c.vault with
          totalWithdrawals := c.vault.totalWithdrawals + r.betLamports }
        transfers := (b, r.betLamports) :: c.transfers
        bets := setBet c.bets b
          { r with claimed := true, payoutAmount := some r.betLamports,
                   status := .Refunded } } := by
  unfold claimRefundStep at h
  split at h
  · exact absurd h (by simp)
  · rename_i h1
    split at h
    · exact absurd h (by simp)
    · rename_i r hg
      split at h
      · exact absurd h (by simp)
      · rename_i h2
        split at h
        · exact absurd h (by simp)
        · rename_i h3
          cases h
          exact ⟨by simpa using h1, r, hg, by simpa using h2, by omega, rfl⟩
/-! ## Arithmetic helper lemmas for the fee and payout -/

theorem fee_le_tenth (total feeBps : Nat) (h1 : feeBps ≤ 1000) :
    total * feeBps / 10000 ≤ total / 10 := by
  calc total * feeBps / 10000 ≤ total * 1000 / 10000 :=
        Nat.div_le_div_right (Nat.mul_le_mul_left total h1)
    _ = total * 1000 / (10 * 1000) := by norm_num
    _ = total / 10 := Nat.mul_div_mul_right total 10 (by norm_num)

theorem feeOf_eq (total feeBps : Nat) (h1 : feeBps ≤ 1000) (h2 : total < U64) :
    feeOf total feeBps = total * feeBps / 10000 :=
  Nat.mod_eq_of_lt (lt_of_le_of_lt (fee_le_tenth total feeBps h1)
    (lt_of_le_of_lt (Nat.div_le_self total 10) h2))

theorem payout_div_no_mod (a d w : Nat) (hd : d < U64) (haw : a ≤ w) :
    a * d / w % U64 = a * d / w := by
  apply Nat.mod_eq_of_lt
  rcases Nat.eq_zero_or_pos w with hw | hw
  · subst hw
    simpa using lt_of_le_of_lt (Nat.zero_le d) hd
  · have h1 : a * d / w ≤ w * d / w :=
      Nat.div_le_div_right (Nat.mul_le_mul_right d haw)
    have h2 : w * d / w = d := Nat.mul_div_cancel_left d hw
    exact lt_of_le_of_lt (h1.trans (le_of_eq h2)) hd

theorem payoutCalc_eq_spec (o : Bool) (a : Nat) (w : Bool)
    (yes no total feeBps : Nat) (h1 : feeBps ≤ 1000) (h2 : total < U64) :
    payoutCalc o a w yes no total feeBps =
      if o = w then
        (if (if w then yes else no) = 0 then 0
         else a * (total - total * feeBps / 10000) / (if w then yes else no) % U64)
      else 0 := by
  unfold payoutCalc
  rw [feeOf_eq total feeBps h1 h2]
  by_cases ho : o = w
  · rw [if_pos (by simpa using ho), if_pos ho]
    by_cases hW : (if w then yes else no) = 0
    · rw [if_pos hW, if_neg (by simp [hW])]
    · rw [if_neg hW, if_pos (Nat.pos_of_ne_zero hW)]
  · rw [if_neg (by simpa using ho), if_neg ho]

theorem payoutCalc_eq_specPayout (o : Bool) (a : Nat) (w : Bool)
    (yes no total feeBps : Nat) (h1 : feeBps ≤ 1000) (h2 : total < U64) :
    payoutCalc o a w yes no total feeBps =
      specPayout o a w yes no total feeBps % U64 := by
  rw [payoutCalc_eq_spec o a w yes no total feeBps h1 h2]
  unfold specPayout
  by_cases ho : o = w
  · by_cases hW : (if w then yes else no) = 0
    · simp [ho, hW]
    · simp [ho, hW]
  · simp [ho]

theorem specPayout_mod_eq (o : Bool) (a : Nat) (w : Bool)
    (yes no total feeBps : Nat) (h2 : total < U64)
    (ha : a ≤ (if w then yes else no)) :
    specPayout o a w yes no total feeBps % U64 =
      specPayout o a w yes no total feeBps := by
  unfold specPayout
  by_cases ho : o ≠ w
  · simp [ho]
  · by_cases hW : (if w then yes else no) = 0
    · simp [ho, hW]
    · simp only [if_neg ho, if_neg hW]
      exact payout_div_no_mod a _ _
        (lt_of_le_of_lt (Nat.sub_le _ _) h2) ha

theorem claimPayoutStep_eq (c : Chain) (b : Nat) (o : Bool) (a : Nat)
    (r : BetRecord) (w : Bool)
    (hst : c.market.status = .Resolved)
    (hout : c.market.outcome = some w)
    (hget : getBet c.bets b = some r)
    (hcl : r.claimed = false)
    (hbs : r.status = .Confirmed)
    (ha : a = r.betLamports) :
    claimPayoutStep c b o a =
      (if payoutCalc o a w c.market.revealedYesPool c.market.revealedNoPool
          c.market.revealedTotalPool c.market.feeBps = 0 then
        .ok { c with
          bets := setBet c.bets b
            { r with
              claimed := true
              payoutAmount := some (payoutCalc o a w c.market.revealedYesPool
                c.market.revealedNoPool c.market.revealedTotalPool
                c.market.feeBps)
              status := .Claimed } }
      else if c.vault.totalWithdrawals + payoutCalc o a w
          c.market.revealedYesPool c.market.revealedNoPool
          c.market.revealedTotalPool c.market.feeBps ≥ U64 then
        .error .overflow
      else
        .ok { c with
          vault := { c.vault with
            totalWithdrawals := c.vault.totalWithdrawals +
              payoutCalc o a w c.market.revealedYesPool c.market.revealedNoPool
                c.market.revealedTotalPool c.market.feeBps }
          transfers := (b, payoutCalc o a w c.market.revealedYesPool
            c.market.revealedNoPool c.market.revealedTotalPool
            c.market.feeBps) :: c.transfers
          bets := setBet c.bets b
            { r with
              claimed := true
              payoutAmount := some (payoutCalc o a w c.market.revealedYesPool
                c.market.revealedNoPool c.market.revealedTotalPool
                c.market.feeBps)
              status := .Claimed } }) := by
  subst ha
  unfold claimPayoutStep
  simp [hst, hget, hout, hcl, hbs]

/-! ## Erasure lemmas for the encrypted-bet noninterference claim -/

theorem getBet_map_erase (l : List (Nat × BetRecord)) (b : Nat) :
    getBet (l.map (fun p => (p.1, eraseRec p.2))) b
      = (getBet l b).map eraseRec := by
  induction l with
  | nil => rfl
  | cons p t ih =>
      obtain ⟨k, v⟩ := p
      by_cases hk : k = b <;> simp [getBet, hk, ih]

theorem setBet_map_erase (l : List (Nat × BetRecord)) (b : Nat)
    (r : BetRecord) :
    (setBet l b r).map (fun p => (p.1, eraseRec p.2))
      = setBet (l.map (fun p => (p.1, eraseRec p.2))) b (eraseRec r) := by
  induction l with
  | nil => rfl
  | cons p t ih =>
      obtain ⟨k, v⟩ := p
      by_cases hk : k = b <;> simp [setBet, hk] at ih ⊢ <;> exact ih

theorem eraseRec_update (r1 r2 : BetRecord) (h : eraseRec r1 = eraseRec r2)
    (cl : Bool) (pa : Option Nat) (st : BetStatus) :
    eraseRec { r1 with claimed := cl, payoutAmount := pa, status := st }
      = eraseRec { r2 with claimed := cl, payoutAmount := pa, status := st } := by
  cases r1
  cases r2
  simp only [eraseRec, BetRecord.mk.injEq] at h ⊢
  simp_all

/-! ## Branch equations for claim_payout -/

theorem claimPayoutStep_not_resolved {c : Chain} {b : Nat} {o : Bool} {a : Nat}
    (h : c.market.status ≠ .Resolved) :
    claimPayoutStep c b o a = .error .marketNotResolved := by
  unfold claimPayoutStep
  rw [if_pos (bne_iff_ne.mpr h)]

theorem claimPayoutStep_no_record {c : Chain} {b : Nat} {o : Bool} {a : Nat}
    (hst : c.market.status = .Resolved) (hg : getBet c.bets b = none) :
    claimPayoutStep c b o a = .error .accountError := by
  unfold claimPayoutStep
  simp [hst, hg]

theorem claimPayoutStep_already_claimed {c : Chain} {b : Nat} {o : Bool}
    {a : Nat} {r : BetRecord}
    (hst : c.market.status = .Resolved) (hg : getBet c.bets b = some r)
    (hcl : r.claimed = true) :
    claimPayoutStep c b o a = .error .betAlreadyClaimed := by
  unfold claimPayoutStep
  simp [hst, hg, hcl]

theorem claimPayoutStep_not_confirmed {c : Chain} {b : Nat} {o : Bool}
    {a : Nat} {r : BetRecord}
    (hst : c.market.status = .Resolved) (hg : getBet c.bets b = some r)
    (hcl : r.claimed = false) (hbs : r.status ≠ .Confirmed) :
    claimPayoutStep c b o a = .error .betNotConfirmed := by
  unfold claimPayoutStep
  simp [hst, hg, hcl, hbs]

theorem claimPayoutStep_no_outcome {c : Chain} {b : Nat} {o : Bool}
    {a : Nat} {r : BetRecord}
    (hst : c.market.status = .Resolved) (hg : getBet c.bets b = some r)
    (hcl : r.claimed = false) (hbs : r.status = .Confirmed)
    (ho : c.market.outcome = none) :
    claimPayoutStep c b o a = .error .marketNotResolved := by
  unfold claimPayoutStep
  simp [hst, hg, hcl, hbs, ho]

theorem claimPayoutStep_amount_mismatch {c : Chain} {b : Nat} {o : Bool}
    {a : Nat} {r : BetRecord} {w : Bool}
    (hst : c.market.status = .Resolved) (hg : getBet c.bets b = some r)
    (hcl : r.claimed = false) (hbs : r.status = .Confirmed)
    (ho : c.market.outcome = some w) (ha : a ≠ r.betLamports) :
    claimPayoutStep c b o a = .error .invalidBetClaim := by
  unfold claimPayoutStep
  simp [hst, hg, hcl, hbs, ho, ha]

theorem claimRefundStep_eq (c : Chain) (b : Nat) (r : BetRecord)
    (hst : c.market.status = .Cancelled)
    (hget : getBet c.bets b = some r)
    (hcl : r.claimed = false) :
    claimRefundStep c b =
      (if c.vault.totalWithdrawals + r.betLamports ≥ U64 then .error .overflow
       else .ok { c with
         vault := { c.vault with
           totalWithdrawals := c.vault.totalWithdrawals + r.betLamports }
         transfers := (b, r.betLamports) :: c.transfers
         bets := setBet c.bets b
           { r with
             claimed := true
             payoutAmount := some r.betLamports
             status := .Refunded } }) := by
  unfold claimRefundStep
  simp [hst, hget, hcl]

/-! ## Step-level stability lemmas -/

theorem run_cons (c : Chain) (a : Action) (tr : List Action) :
    run c (a :: tr) = run (stepOk c a) tr := rfl

theorem stepOk_of_error {c : Chain} {a : Action} {e : Err}
    (h : step c a = .error e) : stepOk c a = c := by
  unfold stepOk
  rw [h]

theorem stepOk_of_ok {c : Chain} {a : Action} {c2 : Chain}
    (h : step c a = .ok c2) : stepOk c a = c2 := by
  unfold stepOk
  rw [h]

theorem totalLiquidityApprox_stepOk (c : Chain) (a : Action) :
    (stepOk c a).market.totalLiquidityApprox
      = c.market.totalLiquidityApprox := by
  rcases ha : step c a with e | c2
  · rw [stepOk_of_error ha]
  · rw [stepOk_of_ok ha]
    cases a <;> simp only [step] at ha
    case initMarketState caller offset nonce =>
      obtain ⟨-, -, -, hc2⟩ := initMarketStateStep_inv ha
      subst hc2
      rfl
    case initMarketStateCallback offset mpcNonce =>
      obtain ⟨p, -, -, hc2⟩ := initMarketStateCallbackStep_inv ha
      subst hc2
      rfl
    case placeBet bettor offset eo ea pk un bl =>
      obtain ⟨-, -, -, -, -, -, -, -, hc2⟩ := placeBetStep_inv ha
      subst hc2
      rfl
    case placeBetCallback offset mpcNonce =>
      obtain ⟨p, b, bo, ba, n0, -, -, r, -, -, hc2⟩ :=
        placeBetCallbackStep_inv ha
      subst hc2
      rfl
    case closeMarket caller =>
      obtain ⟨-, -, hc2⟩ := closeMarketStep_inv ha
      subst hc2
      rfl
    case resolveMarket caller offset outcome =>
      obtain ⟨-, -, -, -, hc2⟩ := resolveMarketStep_inv ha
      subst hc2
      rfl
    case calcPayoutCallback offset =>
      obtain ⟨p, -, oc, n0, -, hc2⟩ := calcPayoutCallbackStep_inv ha
      subst hc2
      rfl
    case claimPayout bettor co ca =>
      obtain ⟨-, r, w, P, -, -, -, -, -, -, hd⟩ := claimPayoutStep_inv ha
      rcases hd with ⟨-, hc2⟩ | ⟨-, -, hc2⟩ <;> subst hc2 <;> rfl
    case cancelMarket caller =>
      obtain ⟨-, -, -, hc2⟩ := cancelMarketStep_inv ha
      subst hc2
      rfl
    case claimRefund bettor =>
      obtain ⟨-, r, -, -, -, hc2⟩ := claimRefundStep_inv ha
      subst hc2
      rfl
    case advanceClock dt =>
      cases ha
      rfl

theorem resolved_stable (c : Chain) (a : Action)
    (h : c.market.status = .Resolved) :
    (stepOk c a).market.status = .Resolved := by
  rcases ha : step c a with e | c2
  · rw [stepOk_of_error ha]
    exact h
  · rw [stepOk_of_ok ha]
    cases a <;> simp only [step] at ha
    case initMarketState caller offset nonce =>
      obtain ⟨-, -, -, hc2⟩ := initMarketStateStep_inv ha
      subst hc2
      exact h
    case initMarketStateCallback offset mpcNonce =>
      obtain ⟨p, -, -, hc2⟩ := initMarketStateCallbackStep_inv ha
      subst hc2
      exact h
    case placeBet bettor offset eo ea pk un bl =>
      obtain ⟨-, -, hopen, -, -, -, -, -, hc2⟩ := placeBetStep_inv ha
      rw [h] at hopen
      exact absurd hopen (by decide)
    case placeBetCallback offset mpcNonce =>
      obtain ⟨p, b, bo, ba, n0, -, -, r, -, -, hc2⟩ :=
        placeBetCallbackStep_inv ha
      subst hc2
      exact h
    case closeMarket caller =>
      obtain ⟨hopen, -, -⟩ := closeMarketStep_inv ha
      rw [h] at hopen
      exact absurd hopen (by decide)
    case resolveMarket caller offset outcome =>
      obtain ⟨hclosed, -, -, -, -⟩ := resolveMarketStep_inv ha
      rw [h] at hclosed
      exact absurd hclosed (by decide)
    case calcPayoutCallback offset =>
      obtain ⟨p, -, oc, n0, -, hc2⟩ := calcPayoutCallbackStep_inv ha
      subst hc2
      rfl
    case claimPayout bettor co ca =>
      obtain ⟨-, r, w, P, -, -, -, -, -, -, hd⟩ := claimPayoutStep_inv ha
      rcases hd with ⟨-, hc2⟩ | ⟨-, -, hc2⟩ <;> subst hc2 <;> exact h
    case cancelMarket caller =>
      obtain ⟨-, hnr, -, -⟩ := cancelMarketStep_inv ha
      exact absurd h hnr
    case claimRefund bettor =>
      obtain ⟨hcanc, -⟩ := claimRefundStep_inv ha
      rw [h] at hcanc
      exact absurd hcanc (by decide)
    case advanceClock dt =>
      cases ha
      exact h

theorem claimed_stable (c : Chain) (a : Action) (b : Nat) (r : BetRecord)
    (hget : getBet c.bets b = some r) (hcl : r.claimed = true) :
    ∃ r2, getBet (stepOk c a).bets b = some r2 ∧ r2.claimed = true := by
  rcases ha : step c a with e | c2
  · rw [stepOk_of_error ha]
    exact ⟨r, hget, hcl⟩
  · rw [stepOk_of_ok ha]
    cases a <;> simp only [step] at ha
    case initMarketState caller offset nonce =>
      obtain ⟨-, -, -, hc2⟩ := initMarketStateStep_inv ha
      subst hc2
      exact ⟨r, hget, hcl⟩
    case initMarketStateCallback offset mpcNonce =>
      obtain ⟨p, -, -, hc2⟩ := initMarketStateCallbackStep_inv ha
      subst hc2
      exact ⟨r, hget, hcl⟩
    case placeBet bettor offset eo ea pk un bl =>
      obtain ⟨hnone, -, -, -, -, -, -, -, hc2⟩ := placeBetStep_inv ha
      subst hc2
      have hne : bettor ≠ b := by
        intro he
        rw [he, hget] at hnone
        exact absurd hnone (by simp)
      refine ⟨r, ?_, hcl⟩
      rw [getBet_cons, if_neg hne]
      exact hget
    case placeBetCallback offset mpcNonce =>
      obtain ⟨p, b0, bo, ba, n0, -, -, r0, hg0, -, hc2⟩ :=
        placeBetCallbackStep_inv ha
      subst hc2
      by_cases he : b0 = b
      · subst he
        have hrr : r0 = r := by
          rw [hget] at hg0
          cases hg0
          rfl
        subst hrr
        refine ⟨{ r0 with status := .Confirmed, confirmedAt := some c.now },
          ?_, hcl⟩
        rw [getBet_setBet, if_pos rfl, hg0]
        rfl
      · refine ⟨r, ?_, hcl⟩
        rw [getBet_setBet, if_neg he]
        exact hget
    case closeMarket caller =>
      obtain ⟨-, -, hc2⟩ := closeMarketStep_inv ha
      subst hc2
      exact ⟨r, hget, hcl⟩
    case resolveMarket caller offset outcome =>
      obtain ⟨-, -, -, -, hc2⟩ := resolveMarketStep_inv ha
      subst hc2
      exact ⟨r, hget, hcl⟩
    case calcPayoutCallback offset =>
      obtain ⟨p, -, oc, n0, -, hc2⟩ := calcPayoutCallbackStep_inv ha
      subst hc2
      exact ⟨r, hget, hcl⟩
    case claimPayout bettor co ca =>
      obtain ⟨-, r0, w, P, hg0, -, -, -, -, -, hd⟩ := claimPayoutStep_inv ha
      have hcore : ∀ bets2, bets2 = setBet c.bets bettor
          { r0 with claimed := true, payoutAmount := some P,
                    status := .Claimed } →
          ∃ r2, getBet bets2 b = some r2 ∧ r2.claimed = true := by
        intro bets2 hb2
        subst hb2
        by_cases he : bettor = b
        · subst he
          refine ⟨{ r0 with
                      claimed := true
                      payoutAmount := some P
                      status := .Claimed }, ?_, rfl⟩
          rw [getBet_setBet, if_pos rfl, hg0]
          rfl
        · refine ⟨r, ?_, hcl⟩
          rw [getBet_setBet, if_neg he]
          exact hget
      rcases hd with ⟨-, hc2⟩ | ⟨-, -, hc2⟩ <;> subst hc2 <;>
        exact hcore _ rfl
    case cancelMarket caller =>
      obtain ⟨-, -, -, hc2⟩ := cancelMarketStep_inv ha
      subst hc2
      exact ⟨r, hget, hcl⟩
    case claimRefund bettor =>
      obtain ⟨-, r0, hg0, -, -, hc2⟩ := claimRefundStep_inv ha
      subst hc2
      by_cases he : bettor = b
      · subst he
        refine ⟨{ r0 with
                    claimed := true
                    payoutAmount := some r0.betLamports
                    status := .Refunded }, ?_, rfl⟩
        rw [getBet_setBet, if_pos rfl, hg0]
        rfl
      · refine ⟨r, ?_, hcl⟩
        rw [getBet_setBet, if_neg he]
        exact hget
    case advanceClock dt =>
      cases ha
      exact ⟨r, hget, hcl⟩

/-! ## Well-formedness preservation and the status-edge lemmas -/

theorem MarketEdgeOK_refl (s : MarketStatus) : MarketEdgeOK s s = true := by
  cases s <;> rfl

theorem BetEdgeOK_refl (s : BetStatus) : BetEdgeOK s s = true := by
  cases s <;> rfl

theorem WF_congr {c c2 : Chain} (hw : WF c)
    (hbets : c2.bets = c.bets) (hpending : c2.pending = c.pending)
    (hstatus : c2.market.status = c.market.status) : WF c2 := by
  refine ⟨?_, ?_, ?_, ?_⟩
  · intro p hp b hb
    rw [hbets]
    rw [hpending] at hp
    exact hw.betPendingRecord p hp b hb
  · intro p hp q hq b hbp hbq
    rw [hpending] at hp hq
    exact hw.betPendingUnique p hp q hq b hbp hbq
  · intro p hp hc
    rw [hstatus]
    rw [hpending] at hp
    exact hw.calcPending p hp hc
  · intro b r hg hs
    rw [hbets] at hg
    exact hw.claimedStatus b r hg hs

theorem WF_createMarket {marketId authority : Nat} {question : String}
    {resolutionTime : Int} {oracleTypeByte feeBps : Nat} {now : Int}
    {c0 : Chain}
    (h : createMarket marketId authority question resolutionTime oracleTypeByte
      feeBps now = .ok c0) : WF c0 := by
  obtain ⟨-, -, -, hc0⟩ := createMarket_inv h
  subst hc0
  refine ⟨?_, ?_, ?_, ?_⟩
  · intro p hp b hb
    exact absurd hp (by simp)
  · intro p hp q hq b hbp hbq
    exact absurd hp (by simp)
  · intro p hp hc
    exact absurd hp (by simp)
  · intro b r hg hs
    exact absurd hg (by simp [getBet])

theorem WF_stepOk (c : Chain) (a : Action) (hw : WF c) : WF (stepOk c a) := by
  rcases ha : step c a with e | c2
  · rw [stepOk_of_error ha]
    exact hw
  · rw [stepOk_of_ok ha]
    cases a <;> simp only [step] at ha
    case initMarketState caller offset nonce =>
      obtain ⟨-, -, -, hc2⟩ := initMarketStateStep_inv ha
      subst hc2
      refine ⟨?_, ?_, ?_, ?_⟩
      · intro p hp b hb
        rcases List.mem_cons.mp hp with hp | hp
        · subst hp
          exact absurd hb (by simp [compBettor])
        · exact hw.betPendingRecord p hp b hb
      · intro p hp q hq b hbp hbq
        rcases List.mem_cons.mp hp with hp | hp
        · subst hp
          exact absurd hbp (by simp [compBettor])
        · rcases List.mem_cons.mp hq with hq | hq
          · subst hq
            exact absurd hbq (by simp [compBettor])
          · exact hw.betPendingUnique p hp q hq b hbp hbq
      · intro p hp hc
        rcases List.mem_cons.mp hp with hp | hp
        · subst hp
          exact absurd hc (by simp [isCalcComp])
        · exact hw.calcPending p hp hc
      · exact hw.claimedStatus
    case initMarketStateCallback offset mpcNonce =>
      obtain ⟨q, -, -, hc2⟩ := initMarketStateCallbackStep_inv ha
      subst hc2
      refine ⟨?_, ?_, ?_, ?_⟩
      · intro p hp b hb
        exact hw.betPendingRecord p (mem_removeComp hp).1 b hb
      · intro p hp q2 hq b hbp hbq
        exact hw.betPendingUnique p (mem_removeComp hp).1 q2
          (mem_removeComp hq).1 b hbp hbq
      · intro p hp hc
        exact hw.calcPending p (mem_removeComp hp).1 hc
      · exact hw.claimedStatus
    case placeBet bettor offset eo ea pk un bl =>
      obtain ⟨hnone, -, hopen, -, -, -, -, -, hc2⟩ := placeBetStep_inv ha
      subst hc2
      refine ⟨?_, ?_, ?_, ?_⟩
      · intro p hp b hb
        rcases List.mem_cons.mp hp with hp | hp
        · subst hp
          simp only [compBettor, Option.some.injEq] at hb
          refine ⟨{ bettor := bettor, betIndex := c.market.betCount,
                    encryptedBet := (eo, ea), userPubkey := pk,
                    userNonce := un, betLamports := bl, status := .Pending,
                    placedAt := c.now, confirmedAt := none, claimed := false,
                    payoutAmount := none }, ?_, Or.inl rfl⟩
          rw [getBet_cons, if_pos hb]
        · obtain ⟨rr, hgr, hsr⟩ := hw.betPendingRecord p hp b hb
          have hne : bettor ≠ b := by
            intro he
            rw [he, hgr] at hnone
            exact absurd hnone (by simp)
          refine ⟨rr, ?_, hsr⟩
          rw [getBet_cons, if_neg hne]
          exact hgr
      · intro p hp q hq b hbp hbq
        have hnotold : ∀ p2 ∈ c.pending, compBettor p2.kind ≠ some bettor := by
          intro p2 hp2 hb2
          obtain ⟨rr, hgr, -⟩ := hw.betPendingRecord p2 hp2 bettor hb2
          rw [hgr] at hnone
          exact absurd hnone (by simp)
        rcases List.mem_cons.mp hp with hp | hp <;>
          rcases List.mem_cons.mp hq with hq | hq
        · rw [hp, hq]
        · subst hp
          simp only [compBettor, Option.some.injEq] at hbp
          subst hbp
          exact absurd hbq (hnotold q hq)
        · subst hq
          simp only [compBettor, Option.some.injEq] at hbq
          subst hbq
          exact absurd hbp (hnotold p hp)
        · exact hw.betPendingUnique p hp q hq b hbp hbq
      · intro p hp hc
        rcases List.mem_cons.mp hp with hp | hp
        · subst hp
          exact absurd hc (by simp [isCalcComp])
        · have := hw.calcPending p hp hc
          rw [hopen] at this
          rcases this with h1 | h1 | h1 <;> exact absurd h1 (by decide)
      · intro b r hg hs
        rw [getBet_cons] at hg
        by_cases he : bettor = b
        · rw [if_pos he] at hg
          cases hg
          rcases hs with hs | hs <;> simp at hs
        · rw [if_neg he] at hg
          exact hw.claimedStatus b r hg hs
    case placeBetCallback offset mpcNonce =>
      obtain ⟨q, b0, bo, ba, n0, hf, hk, r0, hg0, -, hc2⟩ :=
        placeBetCallbackStep_inv ha
      subst hc2
      have hqmem : q ∈ c.pending := findComp_mem hf
      have hqoff : q.offset = offset := findComp_offset hf
      have hqb : compBettor q.kind = some b0 := by
        rw [hk]
        rfl
      refine ⟨?_, ?_, ?_, ?_⟩
      · intro p hp b hb
        obtain ⟨hpold, hpoff⟩ := mem_removeComp hp
        obtain ⟨rr, hgr, hsr⟩ := hw.betPendingRecord p hpold b hb
        have hne : b0 ≠ b := by
          intro he
          subst he
          have := hw.betPendingUnique p hpold q hqmem b0 hb hqb
          rw [this, hqoff] at hpoff
          exact hpoff rfl
        refine ⟨rr, ?_, hsr⟩
        rw [getBet_setBet, if_neg hne]
        exact hgr
      · intro p hp q2 hq b hbp hbq
        exact hw.betPendingUnique p (mem_removeComp hp).1 q2
          (mem_removeComp hq).1 b hbp hbq
      · intro p hp hc
        exact hw.calcPending p (mem_removeComp hp).1 hc
      · intro b r hg hs
        rw [getBet_setBet] at hg
        by_cases he : b0 = b
        · rw [if_pos he, hg0] at hg
          cases hg
          rcases hs with hs | hs <;> simp at hs
        · rw [if_neg he] at hg
          exact hw.claimedStatus b r hg hs
    case closeMarket caller =>
      obtain ⟨hopen, -, hc2⟩ := closeMarketStep_inv ha
      subst hc2
      refine ⟨hw.betPendingRecord, hw.betPendingUnique, ?_, hw.claimedStatus⟩
      intro p hp hc
      have := hw.calcPending p hp hc
      rw [hopen] at this
      rcases this with h1 | h1 | h1 <;> exact absurd h1 (by decide)
    case resolveMarket caller offset outcome =>
      obtain ⟨hclosed, -, -, -, hc2⟩ := resolveMarketStep_inv ha
      subst hc2
      refine ⟨?_, ?_, ?_, hw.claimedStatus⟩
      · intro p hp b hb
        rcases List.mem_cons.mp hp with hp | hp
        · subst hp
          exact absurd hb (by simp [compBettor])
        · exact hw.betPendingRecord p hp b hb
      · intro p hp q hq b hbp hbq
        rcases List.mem_cons.mp hp with hp | hp
        · subst hp
          exact absurd hbp (by simp [compBettor])
        · rcases List.mem_cons.mp hq with hq | hq
          · subst hq
            exact absurd hbq (by simp [compBettor])
          · exact hw.betPendingUnique p hp q hq b hbp hbq
      · intro p hp hc
        rcases List.mem_cons.mp hp with hp | hp
        · exact Or.inl rfl
        · have := hw.calcPending p hp hc
          rw [hclosed] at this
          rcases this with h1 | h1 | h1 <;> exact absurd h1 (by decide)
    case calcPayoutCallback offset =>
      obtain ⟨q, -, oc, n0, -, hc2⟩ := calcPayoutCallbackStep_inv ha
      subst hc2
      refine ⟨?_, ?_, ?_, hw.claimedStatus⟩
      · intro p hp b hb
        exact hw.betPendingRecord p (mem_removeComp hp).1 b hb
      · intro p hp q2 hq b hbp hbq
        exact hw.betPendingUnique p (mem_removeComp hp).1 q2
          (mem_removeComp hq).1 b hbp hbq
      · intro p hp hc
        exact Or.inr (Or.inr rfl)
    case claimPayout bettor co ca =>
      obtain ⟨hres, r0, w, P, hg0, -, hconf, -, -, -, hd⟩ :=
        claimPayoutStep_inv ha
      have hcore : ∀ (v : MarketVault) (t : List (Nat × Nat)),
          WF { c with
            vault := v
            transfers := t
            bets := setBet c.bets bettor
              { r0 with
                claimed := true
                payoutAmount := some P
                status := .Claimed } } := by
        intro v t
        refine ⟨?_, hw.betPendingUnique, hw.calcPending, ?_⟩
        · intro p hp b hb
          obtain ⟨rr, hgr, hsr⟩ := hw.betPendingRecord p hp b hb
          have hne : bettor ≠ b := by
            intro he
            subst he
            rw [hgr] at hg0
            cases hg0
            rcases hsr with hs | hs <;>
              (rw [hconf] at hs; exact absurd hs (by decide))
          refine ⟨rr, ?_, hsr⟩
          rw [getBet_setBet, if_neg hne]
          exact hgr
        · intro b r hg hs
          rw [getBet_setBet] at hg
          by_cases he : bettor = b
          · rw [if_pos he, hg0] at hg
            cases hg
            rfl
          · rw [if_neg he] at hg
            exact hw.claimedStatus b r hg hs
      rcases hd with ⟨-, hc2⟩ | ⟨-, -, hc2⟩ <;> subst hc2
      · exact hcore c.vault c.transfers
      · exact hcore _ _
    case cancelMarket caller =>
      obtain ⟨-, -, -, hc2⟩ := cancelMarketStep_inv ha
      subst hc2
      refine ⟨hw.betPendingRecord, hw.betPendingUnique, ?_, hw.claimedStatus⟩
      intro p hp hc
      exact Or.inr (Or.inl rfl)
    case claimRefund bettor =>
      obtain ⟨-, r0, hg0, -, -, hc2⟩ := claimRefundStep_inv ha
      subst hc2
      refine ⟨?_, hw.betPendingUnique, hw.calcPending, ?_⟩
      · intro p hp b hb
        obtain ⟨rr, hgr, hsr⟩ := hw.betPendingRecord p hp b hb
        by_cases he : bettor = b
        · subst he
          refine ⟨{ r0 with
                    claimed := true
                    payoutAmount := some r0.betLamports
                    status := .Refunded }, ?_, Or.inr rfl⟩
          rw [getBet_setBet, if_pos rfl, hg0]
          rfl
        · refine ⟨rr, ?_, hsr⟩
          rw [getBet_setBet, if_neg he]
          exact hgr
      · intro b r hg hs
        rw [getBet_setBet] at hg
        by_cases he : bettor = b
        · rw [if_pos he, hg0] at hg
          cases hg
          rfl
        · rw [if_neg he] at hg
          exact hw.claimedStatus b r hg hs
    case advanceClock dt =>
      cases ha
      exact WF_congr hw rfl rfl rfl

theorem marketEdge_stepOk (c : Chain) (a : Action) (hw : WF c) :
    MarketEdgeOK c.market.status (stepOk c a).market.status = true := by
  rcases ha : step c a with e | c2
  · rw [stepOk_of_error ha]
    exact MarketEdgeOK_refl _
  · rw [stepOk_of_ok ha]
    cases a <;> simp only [step] at ha
    case initMarketState caller offset nonce =>
      obtain ⟨-, -, -, hc2⟩ := initMarketStateStep_inv ha
      subst hc2
      exact MarketEdgeOK_refl _
    case initMarketStateCallback offset mpcNonce =>
      obtain ⟨q, -, -, hc2⟩ := initMarketStateCallbackStep_inv ha
      subst hc2
      exact MarketEdgeOK_refl _
    case placeBet bettor offset eo ea pk un bl =>
      obtain ⟨-, -, -, -, -, -, -, -, hc2⟩ := placeBetStep_inv ha
      subst hc2
      exact MarketEdgeOK_refl _
    case placeBetCallback offset mpcNonce =>
      obtain ⟨q, b0, bo, ba, n0, -, -, r0, -, -, hc2⟩ :=
        placeBetCallbackStep_inv ha
      subst hc2
      exact MarketEdgeOK_refl _
    case closeMarket caller =>
      obtain ⟨hopen, -, hc2⟩ := closeMarketStep_inv ha
      subst hc2
      rw [hopen]
      rfl
    case resolveMarket caller offset outcome =>
      obtain ⟨hclosed, -, -, -, hc2⟩ := resolveMarketStep_inv ha
      subst hc2
      rw [hclosed]
      rfl
    case calcPayoutCallback offset =>
      obtain ⟨q, hf, oc, n0, hk, hc2⟩ := calcPayoutCallbackStep_inv ha
      subst hc2
      have hcalc : isCalcComp q.kind = true := by
        rw [hk]
        rfl
      rcases hw.calcPending q (findComp_mem hf) hcalc with h5 | h5 | h5 <;>
        rw [h5] <;> rfl
    case claimPayout bettor co ca =>
      obtain ⟨-, r0, w, P, -, -, -, -, -, -, hd⟩ := claimPayoutStep_inv ha
      rcases hd with ⟨-, hc2⟩ | ⟨-, -, hc2⟩ <;> subst hc2 <;>
        exact MarketEdgeOK_refl _
    case cancelMarket caller =>
      obtain ⟨-, hnr, hnc, hc2⟩ := cancelMarketStep_inv ha
      subst hc2
      cases h5 : c.market.status
      case Open => rfl
      case Closed => rfl
      case Resolving => rfl
      case Resolved => exact absurd h5 hnr
      case Cancelled => exact absurd h5 hnc
    case claimRefund bettor =>
      obtain ⟨-, r0, -, -, -, hc2⟩ := claimRefundStep_inv ha
      subst hc2
      exact MarketEdgeOK_refl _
    case advanceClock dt =>
      cases ha
      exact MarketEdgeOK_refl _

theorem betEdge_stepOk (c : Chain) (a : Action) (hw : WF c) (b : Nat)
    (r r2 : BetRecord) (hget : getBet c.bets b = some r)
    (hget2 : getBet (stepOk c a).bets b = some r2) :
    BetEdgeOK r.status r2.status = true := by
  rcases ha : step c a with e | c2
  · rw [stepOk_of_error ha] at hget2
    rw [hget] at hget2
    cases hget2
    exact BetEdgeOK_refl _
  · rw [stepOk_of_ok ha] at hget2
    cases a <;> simp only [step] at ha
    case initMarketState caller offset nonce =>
      obtain ⟨-, -, -, hc2⟩ := initMarketStateStep_inv ha
      subst hc2
      dsimp only [] at hget2
      rw [hget] at hget2
      cases hget2
      exact BetEdgeOK_refl _
    case initMarketStateCallback offset mpcNonce =>
      obtain ⟨q, -, -, hc2⟩ := initMarketStateCallbackStep_inv ha
      subst hc2
      dsimp only [] at hget2
      rw [hget] at hget2
      cases hget2
      exact BetEdgeOK_refl _
    case placeBet bettor offset eo ea pk un bl =>
      obtain ⟨hnone, -, -, -, -, -, -, -, hc2⟩ := placeBetStep_inv ha
      subst hc2
      dsimp only [] at hget2
      rw [getBet_cons] at hget2
      by_cases he : bettor = b
      · rw [he, hget] at hnone
        exact absurd hnone (by simp)
      · rw [if_neg he, hget] at hget2
        cases hget2
        exact BetEdgeOK_refl _
    case placeBetCallback offset mpcNonce =>
      obtain ⟨q, b0, bo, ba, n0, hf, hk, r0, hg0, -, hc2⟩ :=
        placeBetCallbackStep_inv ha
      subst hc2
      dsimp only [] at hget2
      rw [getBet_setBet] at hget2
      by_cases he : b0 = b
      · rw [if_pos he, he, hget] at hget2
        simp only [Option.map_some'] at hget2
        cases hget2
        have hqb : compBettor q.kind = some b0 := by
          rw [hk]
          rfl
        obtain ⟨rr, hgr, hsr⟩ :=
          hw.betPendingRecord q (findComp_mem hf) b0 hqb
        rw [he, hget] at hgr
        cases hgr
        have hr0 : r0 = r := by
          rw [he, hget] at hg0
          cases hg0
          rfl
        subst hr0
        rcases hsr with hs | hs <;> rw [hs] <;> rfl
      · rw [if_neg he, hget] at hget2
        cases hget2
        exact BetEdgeOK_refl _
    case closeMarket caller =>
      obtain ⟨-, -, hc2⟩ := closeMarketStep_inv ha
      subst hc2
      dsimp only [] at hget2
      rw [hget] at hget2
      cases hget2
      exact BetEdgeOK_refl _
    case resolveMarket caller offset outcome =>
      obtain ⟨-, -, -, -, hc2⟩ := resolveMarketStep_inv ha
      subst hc2
      dsimp only [] at hget2
      rw [hget] at hget2
      cases hget2
      exact BetEdgeOK_refl _
    case calcPayoutCallback offset =>
      obtain ⟨q, -, oc, n0, -, hc2⟩ := calcPayoutCallbackStep_inv ha
      subst hc2
      dsimp only [] at hget2
      rw [hget] at hget2
      cases hget2
      exact BetEdgeOK_refl _
    case claimPayout bettor co ca =>
      obtain ⟨-, r0, w, P, hg0, -, hconf, -, -, -, hd⟩ :=
        claimPayoutStep_inv ha
      have hcore : ∀ q : BetRecord,
          getBet (setBet c.bets bettor
            { r0 with
              claimed := true
              payoutAmount := some P
              status := .Claimed }) b = some q →
          BetEdgeOK r.status q.status = true := by
        intro q hq
        rw [getBet_setBet] at hq
        by_cases he : bettor = b
        · rw [if_pos he, he, hget] at hq
          simp only [Option.map_some'] at hq
          cases hq
          have hr0 : r0 = r := by
            rw [he, hget] at hg0
            cases hg0
            rfl
          subst hr0
          rw [hconf]
          rfl
        · rw [if_neg he, hget] at hq
          cases hq
          exact BetEdgeOK_refl _
      rcases hd with ⟨-, hc2⟩ | ⟨-, -, hc2⟩ <;> subst hc2 <;>
        exact hcore r2 hget2
    case cancelMarket caller =>
      obtain ⟨-, -, -, hc2⟩ := cancelMarketStep_inv ha
      subst hc2
      dsimp only [] at hget2
      rw [hget] at hget2
      cases hget2
      exact BetEdgeOK_refl _
    case claimRefund bettor =>
      obtain ⟨-, r0, hg0, hcl0, -, hc2⟩ := claimRefundStep_inv ha
      subst hc2
      dsimp only [] at hget2
      rw [getBet_setBet] at hget2
      by_cases he : bettor = b
      · rw [if_pos he, he, hget] at hget2
        simp only [Option.map_some'] at hget2
        cases hget2
        have hr0 : r0 = r := by
          rw [he, hget] at hg0
          cases hg0
          rfl
        subst hr0
        have hcs := hw.claimedStatus b r0 hget
        cases h5 : r0.status
        · rfl
        · rfl
        · rw [hcs (Or.inl h5)] at hcl0
          exact absurd hcl0 (by decide)
        · rw [hcs (Or.inr h5)] at hcl0
          exact absurd hcl0 (by decide)
      · rw [if_neg he, hget] at hget2
        cases hget2
        exact BetEdgeOK_refl _
    case advanceClock dt =>
      cases ha
      dsimp only [] at hget2
      rw [hget] at hget2
      cases hget2
      exact BetEdgeOK_refl _

theorem cancelMarketStep_isOk (c : Chain) (caller : Nat) :
    (cancelMarketStep c caller).isOk = true ↔
      (caller = c.market.authority ∧ c.market.status ≠ .Resolved ∧
       c.market.status ≠ .Cancelled) := by
  constructor
  · intro h
    rcases hx : cancelMarketStep c caller with e | c2
    · rw [hx] at h
      simp [Except.isOk, Except.toBool] at h
    · obtain ⟨h1, h2, h3, -⟩ := cancelMarketStep_inv hx
      exact ⟨h1, h2, h3⟩
  · rintro ⟨h1, h2, h3⟩
    unfold cancelMarketStep
    rw [if_neg (by simp [h1]), if_neg (by simp [h2]), if_neg (by simp [h3])]
    rfl

/-! ## Claim theorems -/

/-- C1: for every Resolved market and every Confirmed, unclaimed BetRecord
whose claimed amount equals the stored plaintext stake (with the market's fee
at most 1000 bps and the revealed total in u64 range, as `create_market` and
the resolution callback guarantee), `claim_payout` succeeds, and the payout is
0 when the claimed outcome differs from the winning outcome and otherwise
`floor(claimed_amount * (revealed_total − floor(revealed_total * fee_bps /
10000)) / winning_pool)` computed with 128-bit intermediates and narrowed to
u64 — 0 when the winning pool is 0 — where the winning pool is the revealed
yes pool if YES won, else the revealed no pool; whenever the claimed amount is
at most the winning pool the narrowing is the identity, so the code pays the
pure spec formula.  In Scenario A (fee 500 bps, pools 2,000,000 YES and
1,000,000 NO, resolved YES) the YES bettor is paid 2,850,000 and the NO
bettor 0. -/
theorem C1_claim_payout_formula :
    (∀ (c : Chain) (b : Nat) (o : Bool) (a : Nat) (r : BetRecord) (w : Bool),
      c.market.status = .Resolved →
      c.market.outcome = some w →
      getBet c.bets b = some r →
      r.claimed = false →
      r.status = .Confirmed →
      a = r.betLamports →
      c.market.feeBps ≤ 1000 →
      c.market.revealedTotalPool < U64 →
      ∀ P : Nat,
      P = specPayout o a w c.market.revealedYesPool c.market.revealedNoPool
            c.market.revealedTotalPool c.market.feeBps % U64 →
      c.vault.totalWithdrawals + P < U64 →
      ∃ c2, claimPayoutStep c b o a = .ok c2 ∧
        getBet c2.bets b = some
          { r with
            claimed := true
            payoutAmount := some P
            status := .Claimed } ∧
        recvOf c2.transfers b = recvOf c.transfers b + P ∧
        c2.vault.totalWithdrawals = c.vault.totalWithdrawals + P ∧
        (a ≤ (if w then c.market.revealedYesPool else c.market.revealedNoPool) →
          P = specPayout o a w c.market.revealedYesPool c.market.revealedNoPool
                c.market.revealedTotalPool c.market.feeBps)) ∧
    chainA.market.status = .Resolved ∧
    chainA.market.outcome = some true ∧
    chainA.market.revealedYesPool = 2000000 ∧
    chainA.market.revealedNoPool = 1000000 ∧
    chainA.market.revealedTotalPool = 3000000 ∧
    feeOf 3000000 500 = 150000 ∧
    3000000 - feeOf 3000000 500 = 2850000 ∧
    (getBet chainAClaimed.bets 1).bind (fun r => r.payoutAmount)
        = some 2850000 ∧
    recvOf chainAClaimed.transfers 1 = 2850000 ∧
    (getBet chainAClaimed.bets 2).bind (fun r => r.payoutAmount) = some 0 ∧
    recvOf chainAClaimed.transfers 2 = 0 := by
  constructor
  · intro c b o a r w hst hout hget hcl hbs ha hfee htot P hP hov
    have hPeq : payoutCalc o a w c.market.revealedYesPool
        c.market.revealedNoPool c.market.revealedTotalPool c.market.feeBps
          = P := by
      rw [hP]
      exact payoutCalc_eq_specPayout o a w _ _ _ _ hfee htot
    have hrun := claimPayoutStep_eq c b o a r w hst hout hget hcl hbs ha
    rw [hPeq] at hrun
    have hmono : a ≤ (if w then c.market.revealedYesPool
        else c.market.revealedNoPool) →
        P = specPayout o a w c.market.revealedYesPool c.market.revealedNoPool
              c.market.revealedTotalPool c.market.feeBps := by
      intro haw
      rw [hP]
      exact specPayout_mod_eq o a w _ _ _ _ htot haw
    have hbets : getBet (setBet c.bets b
        { r with
          claimed := true
          payoutAmount := some P
          status := .Claimed }) b = some
        { r with
          claimed := true
          payoutAmount := some P
          status := .Claimed } := by
      rw [getBet_setBet, if_pos rfl, hget]
      rfl
    by_cases hP0 : P = 0
    · rw [if_pos hP0] at hrun
      refine ⟨_, hrun, ?_, ?_, ?_, hmono⟩
      · simpa using hbets
      · simp [hP0]
      · simp [hP0]
    · rw [if_neg hP0, if_neg (by omega)] at hrun
      refine ⟨_, hrun, ?_, ?_, ?_, hmono⟩
      · simpa using hbets
      · simp [recvOf_cons, Nat.add_comm]
      · simp
  · refine ⟨?_, ?_, ?_, ?_, ?_, ?_, ?_, ?_, ?_, ?_, ?_⟩ <;> decide

/-- C1 witness: the general statement applied to the concrete Scenario A
resolved market for the YES bettor. -/
theorem C1_claim_payout_formula_witness :
    (claimPayoutStep chainA 1 true 2000000).isOk = true := by
  obtain ⟨c2, hok, -, -, -, -⟩ :=
    C1_claim_payout_formula.1 chainA 1 true 2000000
      ((getBet chainA.bets 1).get!) true (by decide) (by decide) (by decide)
      (by decide) (by decide) (by decide) (by decide) (by decide)
      (specPayout true 2000000 true chainA.market.revealedYesPool
        chainA.market.revealedNoPool chainA.market.revealedTotalPool
        chainA.market.feeBps % U64) rfl (by decide)
  rw [hok]
  rfl

/-- C3: the result of `claim_payout` — success or error, and the payout —
does not depend on the stored encrypted bet ciphertexts: on any two chains
that agree after erasing every record's `encrypted_bet`, `claim_payout`
produces results that again agree after erasure (identical errors, identical
payouts, identical statuses and transfers).  Moreover no entry point ever
queues the `verify_bet_claim` circuit: any outstanding computation after a
successful transaction either was already outstanding or is not a
verify-bet-claim computation. -/
theorem C3_claim_independent_of_encrypted_bet :
    (∀ (c1 c2 : Chain) (b : Nat) (o : Bool) (a : Nat),
      eraseEnc c1 = eraseEnc c2 →
      (claimPayoutStep c1 b o a).map eraseEnc
        = (claimPayoutStep c2 b o a).map eraseEnc) ∧
    (∀ (c : Chain) (act : Action) (c2 : Chain), step c act = .ok c2 →
      ∀ p ∈ c2.pending, p ∈ c.pending ∨ ¬ p.kind = .verifyBetClaimComp) := by
  constructor
  · intro c1 c2 b o a hE
    have hm : c1.market = c2.market := by
      have h := congrArg Chain.market hE
      exact h
    have hv : c1.vault = c2.vault := by
      have h := congrArg Chain.vault hE
      exact h
    have hp : c1.pending = c2.pending := by
      have h := congrArg Chain.pending hE
      exact h
    have ht : c1.transfers = c2.transfers := by
      have h := congrArg Chain.transfers hE
      exact h
    have hn : c1.now = c2.now := by
      have h := congrArg Chain.now hE
      exact h
    have hb : c1.bets.map (fun p => (p.1, eraseRec p.2))
        = c2.bets.map (fun p => (p.1, eraseRec p.2)) := by
      have h := congrArg Chain.bets hE
      exact h
    have hgets : (getBet c1.bets b).map eraseRec
        = (getBet c2.bets b).map eraseRec := by
      rw [← getBet_map_erase, ← getBet_map_erase, hb]
    by_cases hst : c2.market.status = .Resolved
    · have hst1 : c1.market.status = .Resolved := by
        rw [hm]
        exact hst
      rcases h1 : getBet c1.bets b with - | r1 <;>
        rcases h2 : getBet c2.bets b with - | r2
      · rw [claimPayoutStep_no_record hst1 h1,
            claimPayoutStep_no_record hst h2]
      · rw [h1, h2] at hgets
        exact absurd hgets (by simp)
      · rw [h1, h2] at hgets
        exact absurd hgets (by simp)
      · have hrel : eraseRec r1 = eraseRec r2 := by
          rw [h1, h2] at hgets
          simpa using hgets
        have hcl : r1.claimed = r2.claimed := by
          have h := congrArg BetRecord.claimed hrel
          exact h
        have hbs : r1.status = r2.status := by
          have h := congrArg BetRecord.status hrel
          exact h
        have hlam : r1.betLamports = r2.betLamports := by
          have h := congrArg BetRecord.betLamports hrel
          exact h
        by_cases hc2 : r2.claimed = true
        · rw [claimPayoutStep_already_claimed hst1 h1 (hcl.trans hc2),
              claimPayoutStep_already_claimed hst h2 hc2]
        · have hc2f : r2.claimed = false := by
            revert hc2
            cases r2.claimed <;> simp
          have hc1f : r1.claimed = false := hcl.trans hc2f
          by_cases hbs2 : r2.status = .Confirmed
          · rcases ho2 : c2.market.outcome with - | w
            · have ho1 : c1.market.outcome = none := by
                rw [hm]
                exact ho2
              rw [claimPayoutStep_no_outcome hst1 h1 hc1f (hbs.trans hbs2) ho1,
                  claimPayoutStep_no_outcome hst h2 hc2f hbs2 ho2]
            · have ho1 : c1.market.outcome = some w := by
                rw [hm]
                exact ho2
              by_cases ha2 : a = r2.betLamports
              · have e1 := claimPayoutStep_eq c1 b o a r1 w hst1 ho1 h1 hc1f
                  (hbs.trans hbs2) (ha2.trans hlam.symm)
                have e2 := claimPayoutStep_eq c2 b o a r2 w hst ho2 h2 hc2f
                  hbs2 ha2
                rw [hm, hv, ht] at e1
                rw [e1, e2]
                have hr12 := eraseRec_update r1 r2 hrel true
                  (some (payoutCalc o a w c2.market.revealedYesPool
                    c2.market.revealedNoPool c2.market.revealedTotalPool
                    c2.market.feeBps)) .Claimed
                by_cases hP0 : payoutCalc o a w c2.market.revealedYesPool
                    c2.market.revealedNoPool c2.market.revealedTotalPool
                    c2.market.feeBps = 0
                · rw [if_pos hP0, if_pos hP0]
                  simp only [Except.map]
                  simp only [eraseEnc, setBet_map_erase, hb, hp, hn, hm, hv,
                    ht, hr12]
                · rw [if_neg hP0, if_neg hP0]
                  by_cases hov : c2.vault.totalWithdrawals +
                      payoutCalc o a w c2.market.revealedYesPool
                        c2.market.revealedNoPool c2.market.revealedTotalPool
                        c2.market.feeBps ≥ U64
                  · rw [if_pos hov, if_pos hov]
                  · rw [if_neg hov, if_neg hov]
                    simp only [Except.map]
                    simp only [eraseEnc, setBet_map_erase, hb, hp, hn, hm, hv,
                      ht, hr12]
              · rw [claimPayoutStep_amount_mismatch hst1 h1 hc1f
                    (hbs.trans hbs2) ho1 (fun he => ha2 (he.trans hlam)),
                  claimPayoutStep_amount_mismatch hst h2 hc2f hbs2 ho2 ha2]
          · rw [claimPayoutStep_not_confirmed hst1 h1 hc1f
                (fun he => hbs2 (hbs.symm.trans he)),
              claimPayoutStep_not_confirmed hst h2 hc2f hbs2]
    · rw [claimPayoutStep_not_resolved (fun he => hst (hm ▸ he)),
          claimPayoutStep_not_resolved hst]
  · intro c act c2 hstep p hmem
    cases act <;> simp only [step] at hstep
    case initMarketState caller offset nonce =>
      obtain ⟨-, -, -, hc2⟩ := initMarketStateStep_inv hstep
      subst hc2
      rcases List.mem_cons.mp hmem with hmem | hmem
      · subst hmem
        exact Or.inr (by simp)
      · exact Or.inl hmem
    case initMarketStateCallback offset mpcNonce =>
      obtain ⟨q, -, -, hc2⟩ := initMarketStateCallbackStep_inv hstep
      subst hc2
      exact Or.inl (mem_removeComp hmem).1
    case placeBet bettor offset eo ea pk un bl =>
      obtain ⟨-, -, -, -, -, -, -, -, hc2⟩ := placeBetStep_inv hstep
      subst hc2
      rcases List.mem_cons.mp hmem with hmem | hmem
      · subst hmem
        exact Or.inr (by simp)
      · exact Or.inl hmem
    case placeBetCallback offset mpcNonce =>
      obtain ⟨q, b0, bo, ba, n0, -, -, r0, -, -, hc2⟩ :=
        placeBetCallbackStep_inv hstep
      subst hc2
      exact Or.inl (mem_removeComp hmem).1
    case closeMarket caller =>
      obtain ⟨-, -, hc2⟩ := closeMarketStep_inv hstep
      subst hc2
      exact Or.inl hmem
    case resolveMarket caller offset outcome =>
      obtain ⟨-, -, -, -, hc2⟩ := resolveMarketStep_inv hstep
      subst hc2
      rcases List.mem_cons.mp hmem with hmem | hmem
      · subst hmem
        exact Or.inr (by simp)
      · exact Or.inl hmem
    case calcPayoutCallback offset =>
      obtain ⟨q, -, oc, n0, -, hc2⟩ := calcPayoutCallbackStep_inv hstep
      subst hc2
      exact Or.inl (mem_removeComp hmem).1
    case claimPayout bettor co ca =>
      obtain ⟨-, r0, w, P, -, -, -, -, -, -, hd⟩ := claimPayoutStep_inv hstep
      rcases hd with ⟨-, hc2⟩ | ⟨-, -, hc2⟩ <;> subst hc2 <;> exact Or.inl hmem
    case cancelMarket caller =>
      obtain ⟨-, -, -, hc2⟩ := cancelMarketStep_inv hstep
      subst hc2
      exact Or.inl hmem
    case claimRefund bettor =>
      obtain ⟨-, r0, -, -, -, hc2⟩ := claimRefundStep_inv hstep
      subst hc2
      exact Or.inl hmem
    case advanceClock dt =>
      cases hstep
      exact Or.inl hmem

/-- C3 witness: Scenario A's chain and the same chain with the YES bettor's
stored encrypted bet replaced by the ciphertext of (NO, 1) produce identical
erased results for the YES claim. -/
theorem C3_claim_independent_of_encrypted_bet_witness :
    (claimPayoutStep chainA 1 true 2000000).map eraseEnc
      = (claimPayoutStep { chainA with
          bets := setBet chainA.bets 1
            { (getBet chainA.bets 1).get! with
              encryptedBet := (false, 1) } } 1 true 2000000).map eraseEnc := by
  have h := C3_claim_independent_of_encrypted_bet.1 chainA
    { chainA with
      bets := setBet chainA.bets 1
        { (getBet chainA.bets 1).get! with encryptedBet := (false, 1) } }
    1 true 2000000 (by decide)
  exact h

/-- C5 amended: `cancel_market` succeeds exactly when the caller is the
creator and the status is neither Resolved nor Cancelled — so, contrary to the
original claim, it also succeeds from Resolving (see the counterexample).
Consequently the status graphs the code actually follows are the §4.3 graphs
extended by three edges: Resolving → Cancelled (cancel during resolution),
Cancelled → Resolved (the payout-pools callback landing after such a cancel),
and Refunded → Confirmed (the place-bet callback landing after a refund on a
cancelled market).  Formally: every well-formed chain (as established by
`create_market` and preserved by every transaction) only takes Market edges in
`MarketEdgeOK` and BetRecord edges in `BetEdgeOK`. -/
theorem C5_amended_transitions :
    (∀ (c : Chain) (caller : Nat),
      (cancelMarketStep c caller).isOk = true ↔
        (caller = c.market.authority ∧ c.market.status ≠ .Resolved ∧
         c.market.status ≠ .Cancelled)) ∧
    (∀ (marketId authority : Nat) (question : String) (resolutionTime : Int)
        (oracleTypeByte feeBps : Nat) (now : Int) (c0 : Chain),
      createMarket marketId authority question resolutionTime oracleTypeByte
          feeBps now = .ok c0 → WF c0) ∧
    (∀ (c : Chain) (a : Action), WF c → WF (stepOk c a)) ∧
    (∀ (c : Chain) (a : Action), WF c →
      MarketEdgeOK c.market.status (stepOk c a).market.status = true) ∧
    (∀ (c : Chain) (a : Action) (b : Nat) (r r2 : BetRecord), WF c →
      getBet c.bets b = some r → getBet (stepOk c a).bets b = some r2 →
      BetEdgeOK r.status r2.status = true) :=
  ⟨cancelMarketStep_isOk,
   fun _ _ _ _ _ _ _ _ h => WF_createMarket h,
   fun c a hw => WF_stepOk c a hw,
   fun c a hw => marketEdge_stepOk c a hw,
   fun c a b r r2 hw h1 h2 => betEdge_stepOk c a hw b r r2 h1 h2⟩

/-- C5 amended witness: the edge theorem applied to the concrete freshly
created market closed by its creator, and the cancel characterization applied
to the concrete Resolving market. -/
theorem C5_amended_transitions_witness :
    MarketEdgeOK chain0.market.status
        (stepOk chain0 (.closeMarket 100)).market.status = true ∧
    (cancelMarketStep chainResolving 100).isOk = true := by
  constructor
  · exact C5_amended_transitions.2.2.2.1 chain0 (.closeMarket 100)
      (C5_amended_transitions.2.1 1 100 "q" 3600 0 500 0 chain0 (by rfl))
  · exact (C5_amended_transitions.1 chainResolving 100).mpr
      ⟨by decide, by decide, by decide⟩

/-- C6: at most one `claim_payout` ever succeeds per BetRecord: a successful
claim sets the claimed flag and moves the record to Claimed, the market stays
Resolved and the claimed flag stays set under every later transaction, so any
later `claim_payout` for the same record fails with the already-claimed error
and leaves the chain unchanged. -/
theorem C6_no_double_payout :
    ∀ (c c1 : Chain) (b : Nat) (o : Bool) (a : Nat) (o2 : Bool) (a2 : Nat)
      (tr : List Action),
      claimPayoutStep c b o a = .ok c1 →
      step (run c1 tr) (.claimPayout b o2 a2) = .error .betAlreadyClaimed ∧
      stepOk (run c1 tr) (.claimPayout b o2 a2) = run c1 tr := by
  intro c c1 b o a o2 a2 tr h
  obtain ⟨hst, r, w, P, hget, -, -, -, -, -, hd⟩ := claimPayoutStep_inv h
  have hst1 : c1.market.status = .Resolved := by
    rcases hd with ⟨-, hc2⟩ | ⟨-, -, hc2⟩ <;> subst hc2 <;> exact hst
  have hget1 : ∃ r1, getBet c1.bets b = some r1 ∧ r1.claimed = true := by
    rcases hd with ⟨-, hc2⟩ | ⟨-, -, hc2⟩ <;> subst hc2 <;>
      exact ⟨{ r with
               claimed := true
               payoutAmount := some P
               status := .Claimed },
        by rw [getBet_setBet, if_pos rfl, hget]; rfl, rfl⟩
  obtain ⟨r1, hg1, hc1l⟩ := hget1
  have hprop : ∀ (c3 : Chain), c3.market.status = .Resolved →
      (∃ rr, getBet c3.bets b = some rr ∧ rr.claimed = true) →
      (run c3 tr).market.status = .Resolved ∧
      ∃ rr, getBet (run c3 tr).bets b = some rr ∧ rr.claimed = true := by
    induction tr with
    | nil =>
        intro c3 h1 h2
        exact ⟨h1, h2⟩
    | cons a3 tr3 ih =>
        intro c3 h1 h2
        rw [run_cons]
        obtain ⟨rr, hgr, hcr⟩ := h2
        exact ih _ (resolved_stable _ _ h1) (claimed_stable _ _ _ _ hgr hcr)
  obtain ⟨hstR, rr, hgR, hcR⟩ := hprop c1 hst1 ⟨r1, hg1, hc1l⟩
  have herr : step (run c1 tr) (.claimPayout b o2 a2)
      = .error .betAlreadyClaimed := by
    show claimPayoutStep (run c1 tr) b o2 a2 = .error .betAlreadyClaimed
    simp [claimPayoutStep, hstR, hgR, hcR]
  exact ⟨herr, stepOk_of_error herr⟩

/-- C6 witness: the YES bettor of Scenario A claims successfully once; the
immediate second claim fails with the already-claimed error. -/
theorem C6_no_double_payout_witness :
    step (run (stepOk chainA (.claimPayout 1 true 2000000)) [])
        (.claimPayout 1 true 2000000) = .error .betAlreadyClaimed := by
  have h := C6_no_double_payout chainA
    (stepOk chainA (.claimPayout 1 true 2000000))
    1 true 2000000 true 2000000 [] (by rfl)
  exact h.1

/-- C7: for a BetRecord with the claimed flag clear on a Cancelled market,
`claim_refund` succeeds and transfers exactly the stored plaintext stake back
to the bettor (independent of any pool); immediately afterwards the claimed
flag is set, so a second refund by the same bettor fails with the
already-claimed error; and `claim_refund` fails whenever the market is not
Cancelled or the record is already claimed. -/
theorem C7_refund_once :
    (∀ (c : Chain) (b : Nat) (r : BetRecord),
      c.market.status = .Cancelled →
      getBet c.bets b = some r →
      r.claimed = false →
      c.vault.totalWithdrawals + r.betLamports < U64 →
      ∃ c2, claimRefundStep c b = .ok c2 ∧
        recvOf c2.transfers b = recvOf c.transfers b + r.betLamports ∧
        c2.vault.totalWithdrawals
          = c.vault.totalWithdrawals + r.betLamports ∧
        getBet c2.bets b = some
          { r with
            claimed := true
            payoutAmount := some r.betLamports
            status := .Refunded } ∧
        claimRefundStep c2 b = .error .betAlreadyClaimed) ∧
    (∀ (c : Chain) (b : Nat),
      c.market.status ≠ .Cancelled →
      claimRefundStep c b = .error .marketCancelled) ∧
    (∀ (c : Chain) (b : Nat) (r : BetRecord),
      c.market.status = .Cancelled →
      getBet c.bets b = some r →
      r.claimed = true →
      claimRefundStep c b = .error .betAlreadyClaimed) := by
  refine ⟨?_, ?_, ?_⟩
  · intro c b r hst hget hcl hov
    have hrun := claimRefundStep_eq c b r hst hget hcl
    rw [if_neg (by omega)] at hrun
    refine ⟨_, hrun, ?_, ?_, ?_, ?_⟩
    · simp [recvOf_cons, Nat.add_comm]
    · rfl
    · rw [getBet_setBet, if_pos rfl, hget]
      rfl
    · have hget2 : getBet (setBet c.bets b
          { r with
            claimed := true
            payoutAmount := some r.betLamports
            status := .Refunded }) b = some
          { r with
            claimed := true
            payoutAmount := some r.betLamports
            status := .Refunded } := by
        rw [getBet_setBet, if_pos rfl, hget]
        rfl
      unfold claimRefundStep
      simp [hst, hget2]
  · intro c b h
    unfold claimRefundStep
    rw [if_pos (bne_iff_ne.mpr h)]
  · intro c b r hst hget hcl
    unfold claimRefundStep
    simp [hst, hget, hcl]

/-- C7 witness: the confirmed bettor of the cancelled Scenario C market is
refunded exactly the 2,000,000-lamport stake. -/
theorem C7_refund_once_witness :
    (claimRefundStep chainCancelled 1).isOk = true := by
  obtain ⟨c2, hok, -, -, -, -⟩ := C7_refund_once.1 chainCancelled 1
    ((getBet chainCancelled.bets 1).get!)
    (by decide) (by decide) (by decide) (by decide)
  rw [hok]
  rfl

/-- C10: `total_liquidity_approx` is 0 in every reachable Market state: it is
initialized to 0 by `create_market` and no entry point or callback ever changes
it, so the liquidity reported at close or cancel time is always 0 no matter how
many bets were placed. -/
theorem C10_liquidity_zero :
    (∀ (c : Chain) (a : Action),
      (stepOk c a).market.totalLiquidityApprox
        = c.market.totalLiquidityApprox) ∧
    (∀ (marketId authority : Nat) (question : String) (resolutionTime : Int)
        (oracleTypeByte feeBps : Nat) (now : Int) (c0 : Chain)
        (tr : List Action),
      createMarket marketId authority question resolutionTime oracleTypeByte
          feeBps now = .ok c0 →
      (run c0 tr).market.totalLiquidityApprox = 0) := by
  refine ⟨totalLiquidityApprox_stepOk, ?_⟩
  intro marketId authority question resolutionTime oracleTypeByte feeBps now
    c0 tr h
  obtain ⟨-, -, -, hc0⟩ := createMarket_inv h
  have hz : c0.market.totalLiquidityApprox = 0 := by
    rw [hc0]
  clear h hc0
  induction tr generalizing c0 with
  | nil => exact hz
  | cons a tr ih =>
      rw [run_cons]
      exact ih _ (by rw [totalLiquidityApprox_stepOk]; exact hz)

/-- C10 witness: the invariant evaluated on the concrete Scenario A trace,
which places two bets totalling 3,000,000 lamports. -/
theorem C10_liquidity_zero_witness :
    (run chain0 traceA).market.totalLiquidityApprox = 0 :=
  C10_liquidity_zero.2 1 100 "q" 3600 0 500 0 chain0 traceA (by rfl)

/-- C2: the claim says that while an aggregate-mutating computation is
outstanding for a Market, any entry point queueing a second one is rejected,
so no reachable state holds two aggregate-mutating computations referencing
the same pre-update aggregate nonce.  The code has no such guard: after two
`place_bet` calls by different bettors on the same Open, initialized market
(before either callback lands), the reachable state `chainRace` holds two
distinct outstanding aggregate-mutating computations that both captured the
market's current (pre-update) `state_nonce`. -/
theorem C2_lost_update_guard_missing :
    ∃ p q : PendingComp, p ∈ chainRace.pending ∧ q ∈ chainRace.pending ∧
      p ≠ q ∧ isAggMutating p.kind = true ∧ isAggMutating q.kind = true ∧
      capturedNonceOf p.kind = some chainRace.market.stateNonce ∧
      capturedNonceOf q.kind = some chainRace.market.stateNonce := by
  refine ⟨⟨3, .placeBetComp 2 false 1000000 11⟩,
          ⟨2, .placeBetComp 1 true 2000000 11⟩, ?_, ?_, ?_, ?_, ?_, ?_, ?_⟩ <;>
    decide

/-- C4: the claim says withdrawals never exceed deposits and the claimed
payouts after a resolution total at most `revealed_total − fee`.  The code
violates both: `claim_payout` never checks the claimed outcome against the
bettor's stored (encrypted) bet, so in `chainDoubleWin` the bettor who bet NO
(their stored encrypted bet has outcome false) claims YES with their true
stake and is paid a winner's share; 3,800,000 lamports leave the vault against
2,000,000 deposited, exceeding the distributable 1,900,000. -/
theorem C4_conservation_violated :
    chainDoubleWin.vault.totalDeposits = 2000000 ∧
    chainDoubleWin.vault.totalWithdrawals = 3800000 ∧
    ¬ chainDoubleWin.vault.totalWithdrawals ≤ chainDoubleWin.vault.totalDeposits ∧
    chainDoubleWin.market.revealedTotalPool = 2000000 ∧
    chainDoubleWin.market.revealedTotalPool -
      feeOf chainDoubleWin.market.revealedTotalPool chainDoubleWin.market.feeBps
        = 1900000 ∧
    recvOf chainDoubleWin.transfers 1 + recvOf chainDoubleWin.transfers 2
        = 3800000 ∧
    (getBet chainDoubleWin.bets 2).map (fun r => r.encryptedBet.1) = some false ∧
    chainDoubleWin.market.outcome = some true := by
  decide

/-- C5 counterexample: the claim says `cancel_market` is rejected for every
status other than Open and Closed, in particular for Resolving.  In the code
the `CancelMarket` constraints only exclude Resolved and Cancelled, so the
creator cancels the reachable Resolving market `chainResolving` successfully;
moreover the still-outstanding payout-pools callback then lands on the
Cancelled market and moves it to Resolved. -/
theorem C5_cancel_counterexample :
    chainResolving.market.status = .Resolving ∧
    (cancelMarketStep chainResolving 100).isOk = true ∧
    (stepOk chainResolving (.cancelMarket 100)).market.status = .Cancelled ∧
    (stepOk (stepOk chainResolving (.cancelMarket 100))
        (.calcPayoutCallback 2)).market.status = .Resolved := by
  decide

/-- C8: the `place_bet` circuit adds the bet amount to the pool selected by the
bet outcome, leaves the other pool unchanged, and increments the bet count by
exactly one (within the u64/u32 ranges of the circuit's arithmetic). -/
theorem C8_place_bet_circuit (o : Bool) (amt : Nat) (s : Agg)
    (hpool : (if o then s.yesPool else s.noPool) + amt < U64)
    (hcount : s.betCount + 1 < U32) :
    (placeBetCircuit o amt s).yesPool
        = (if o then s.yesPool + amt else s.yesPool) ∧
    (placeBetCircuit o amt s).noPool
        = (if o then s.noPool else s.noPool + amt) ∧
    (placeBetCircuit o amt s).betCount = s.betCount + 1 := by
  cases o
  · exact ⟨rfl, Nat.mod_eq_of_lt (by simpa using hpool), Nat.mod_eq_of_lt hcount⟩
  · exact ⟨Nat.mod_eq_of_lt (by simpa using hpool), rfl, Nat.mod_eq_of_lt hcount⟩

/-- C8 witness: the circuit at a YES bet of 5 on pools (2, 3, count 1). -/
theorem C8_place_bet_circuit_witness :
    (placeBetCircuit true 5 ⟨2, 3, 1⟩).yesPool = 7 ∧
    (placeBetCircuit true 5 ⟨2, 3, 1⟩).noPool = 3 ∧
    (placeBetCircuit true 5 ⟨2, 3, 1⟩).betCount = 2 := by
  have h := C8_place_bet_circuit true 5 ⟨2, 3, 1⟩ (by decide) (by decide)
  simpa using h

/-- C9: for `fee_bps ≤ 1000` and `revealed_total` in the u64 range, the fee
computed by `claim_payout` is at most a tenth of the total, the u128
intermediate product does not overflow, and the narrowing `as u64` cast is the
identity. -/
theorem C9_fee_bound (total feeBps : Nat) (h1 : feeBps ≤ 1000) (h2 : total < U64) :
    feeOf total feeBps ≤ total / 10 ∧
    total * feeBps < 2 ^ 128 ∧
    feeOf total feeBps = total * feeBps / 10000 := by
  have hdiv : total * feeBps / 10000 ≤ total / 10 := by
    calc total * feeBps / 10000 ≤ total * 1000 / 10000 :=
          Nat.div_le_div_right (Nat.mul_le_mul_left total h1)
      _ = total * 1000 / (10 * 1000) := by norm_num
      _ = total / 10 := Nat.mul_div_mul_right total 10 (by norm_num)
  have hlt : total * feeBps / 10000 < U64 :=
    lt_of_le_of_lt hdiv (lt_of_le_of_lt (Nat.div_le_self total 10) h2)
  have hmod : feeOf total feeBps = total * feeBps / 10000 :=
    Nat.mod_eq_of_lt hlt
  refine ⟨hmod ▸ hdiv, ?_, hmod⟩
  calc total * feeBps ≤ U64 * 1000 := Nat.mul_le_mul (le_of_lt h2) h1
    _ < 2 ^ 128 := by norm_num [U64]

/-- C9 witness: the fee bound at `fee_bps = 1000` and the largest u64 total. -/
theorem C9_fee_bound_witness :
    feeOf (2 ^ 64 - 1) 1000 ≤ (2 ^ 64 - 1) / 10 ∧
    (2 ^ 64 - 1) * 1000 < 2 ^ 128 ∧
    feeOf (2 ^ 64 - 1) 1000 = (2 ^ 64 - 1) * 1000 / 10000 := by
  have h := C9_fee_bound (2 ^ 64 - 1) 1000 (by decide) (by decide)
  exact h

end Veil
